import Mathlib

/-!
# Canopy conversation-tree engine: formal verification of spec claims

This file shallowly embeds the tree-store mutation operations, the ancestor
traversal / context assembly, and the hierarchy/layout tree construction of the
Canopy repository, and proves or refutes the specification claims about them.

Two data representations occur in the source and are both embedded:
* the array-based store (`ChatNode[]` of `src/types.ts`, operated on by
  `src/features/deletion/utils.ts`, `src/features/archive/utils.ts` and
  `src/utils/treeUtils.ts`), and
* the `Map`-based store (`ConversationNode` of `src/src/types/tree.ts`,
  operated on by the zustand conversation store, `src/src/lib/tree/traversal.ts`,
  the context builder and the layout engine); the `Map` is modelled as an
  association list with JavaScript `Map` get/set/delete semantics.

The recursive `findDescendants` helpers of the source collect, into a mutable
`Set`, the ids of all nodes reachable from a start node by repeatedly taking
children (nodes whose `parentId` is in the set); the `has`-check makes the
recursion terminate.  Here that set is computed by `closSet`, a bounded
fixed-point iteration that provably computes the same set of ids (membership is
characterised against the transitive closure of the child relation below).
-/

namespace Canopy

/-! ## Generic reachability-set machinery

`closSet R univ seed` is the least subset of `seed ∪ univ` containing `seed`
and closed under adding any `b ∈ univ` reachable by one `R`-step from a member.
It is computed by iterating a growth round `univ.length` times, which is enough
to reach the fixed point. -/

theorem contains_iff {s : List String} {b : String} : s.contains b = true ↔ b ∈ s := by
  rw [List.contains_eq_any_beq, List.any_eq_true]
  constructor
  · rintro ⟨a, ha, hab⟩
    rw [beq_iff_eq] at hab
    exact hab ▸ ha
  · intro hb
    exact ⟨b, hb, by simp⟩

/-- One growth round: add every `b ∈ univ` not yet in `s` that is an `R`-step
away from some member of `s`. -/
def closGrow (R : String → String → Bool) (univ : List String) (s : List String) : List String :=
  s ++ univ.filter (fun b => !(s.contains b) && s.any (fun a => R a b))

/-- Iterate `closGrow` a fixed number of rounds. -/
def closIter (R : String → String → Bool) (univ : List String) : Nat → List String → List String
  | 0, s => s
  | k + 1, s => closIter R univ k (closGrow R univ s)

/-- The reachability set: iterate the growth round `univ.length` times, which
reaches the fixed point (each productive round consumes at least one element of
`univ`). -/
def closSet (R : String → String → Bool) (univ : List String) (seed : List String) : List String :=
  closIter R univ univ.length seed

/-- A set is stable when no growth round can add anything. -/
def Stable (R : String → String → Bool) (univ : List String) (s : List String) : Prop :=
  ∀ b ∈ univ, (∃ a ∈ s, R a b = true) → b ∈ s

theorem subset_closGrow (R : String → String → Bool) (univ s : List String) :
    s ⊆ closGrow R univ s := fun _ hx => List.mem_append_left _ hx

theorem subset_closIter (R : String → String → Bool) (univ : List String) :
    ∀ (k : Nat) (s : List String), s ⊆ closIter R univ k s := by
  intro k
  induction k with
  | zero => intro s x hx; exact hx
  | succ k ih =>
    intro s x hx
    exact ih (closGrow R univ s) (subset_closGrow R univ s hx)

theorem closGrow_of_stable {R : String → String → Bool} {univ s : List String}
    (h : Stable R univ s) : closGrow R univ s = s := by
  unfold closGrow
  have hfil : univ.filter (fun b => !(s.contains b) && s.any (fun a => R a b)) = [] := by
    apply List.filter_eq_nil_iff.mpr
    intro b hb hcond
    rw [Bool.and_eq_true, Bool.not_eq_true'] at hcond
    obtain ⟨hnot, hany⟩ := hcond
    rw [List.any_eq_true] at hany
    obtain ⟨a, ha, hR⟩ := hany
    have hmem : b ∈ s := h b hb ⟨a, ha, hR⟩
    rw [← contains_iff] at hmem
    rw [hmem] at hnot
    cases hnot
  rw [hfil, List.append_nil]

theorem closIter_of_stable {R : String → String → Bool} {univ s : List String}
    (h : Stable R univ s) : ∀ k, closIter R univ k s = s := by
  intro k
  induction k with
  | zero => rfl
  | succ k ih =>
    show closIter R univ k (closGrow R univ s) = s
    rw [closGrow_of_stable h, ih]

/-- Count of `univ` elements not yet in `s`; the termination measure. -/
def closMeasure (univ s : List String) : Nat :=
  univ.countP (fun b => !(s.contains b))

theorem countP_lt_of_witness {α : Type} (p q : α → Bool) :
    ∀ (l : List α), (∀ a ∈ l, p a = true → q a = true) →
      ∀ x ∈ l, p x = false → q x = true → l.countP p < l.countP q := by
  intro l
  induction l with
  | nil => intro _ x hx; cases hx
  | cons c l ih =>
    intro hmono x hx hpx hqx
    have hmono' : ∀ a ∈ l, p a = true → q a = true := fun a ha => hmono a (List.mem_cons_of_mem c ha)
    have hle : l.countP p ≤ l.countP q := List.countP_mono_left hmono'
    rcases List.mem_cons.mp hx with hxc | hxl
    · subst hxc
      rw [List.countP_cons, List.countP_cons, hpx, hqx]
      simpa using Nat.lt_succ_of_le hle
    · have hlt := ih hmono' x hxl hpx hqx
      rw [List.countP_cons, List.countP_cons]
      have hcc : (if p c = true then 1 else 0) ≤ (if q c = true then 1 else 0) := by
        by_cases hp : p c = true
        · rw [if_pos hp, if_pos (hmono c (List.mem_cons_self c l) hp)]
        · rw [if_neg hp]; omega
      omega

theorem closMeasure_closGrow_lt {R : String → String → Bool} {univ s : List String}
    (h : univ.filter (fun b => !(s.contains b) && s.any (fun a => R a b)) ≠ []) :
    closMeasure univ (closGrow R univ s) < closMeasure univ s := by
  obtain ⟨x, hx⟩ := List.exists_mem_of_ne_nil _ h
  have hxu : x ∈ univ := List.mem_of_mem_filter hx
  have hxc := List.of_mem_filter hx
  rw [Bool.and_eq_true, Bool.not_eq_true'] at hxc
  obtain ⟨hxnot, _⟩ := hxc
  have hxg : x ∈ closGrow R univ s := List.mem_append_right _ hx
  apply countP_lt_of_witness _ _ univ
  · intro a _ ha
    rw [Bool.not_eq_true'] at ha ⊢
    rw [← Bool.not_eq_true] at ha ⊢
    intro hc
    apply ha
    rw [contains_iff] at hc ⊢
    exact subset_closGrow R univ s hc
  · exact hxu
  · have hc : (closGrow R univ s).contains x = true := contains_iff.mpr hxg
    rw [hc]
    rfl
  · rw [Bool.not_eq_true', hxnot]

theorem closIter_stable {R : String → String → Bool} {univ : List String} :
    ∀ (k : Nat) (s : List String), closMeasure univ s ≤ k →
      Stable R univ (closIter R univ k s) := by
  intro k
  induction k with
  | zero =>
    intro s hm b hb _
    have h0 : closMeasure univ s = 0 := Nat.le_zero.mp hm
    have hall := List.countP_eq_zero.mp h0 b hb
    have hcb : s.contains b = true := by
      cases hcb : s.contains b
      · rw [hcb] at hall
        exact absurd rfl hall
      · rfl
    exact contains_iff.mp hcb
  | succ k ih =>
    intro s hm
    by_cases hfil : univ.filter (fun b => !(s.contains b) && s.any (fun a => R a b)) = []
    · have hgrow : closGrow R univ s = s := by
        unfold closGrow; rw [hfil, List.append_nil]
      have hstab : Stable R univ s := by
        intro b hb hex
        obtain ⟨a, ha, hR⟩ := hex
        by_contra hnb
        have hmem : b ∈ univ.filter (fun b => !(s.contains b) && s.any (fun a => R a b)) := by
          apply List.mem_filter.mpr
          refine ⟨hb, ?_⟩
          rw [Bool.and_eq_true]
          constructor
          · rw [Bool.not_eq_true', ← Bool.not_eq_true]
            intro hc
            exact hnb (contains_iff.mp hc)
          · exact List.any_eq_true.mpr ⟨a, ha, hR⟩
        rw [hfil] at hmem
        cases hmem
      show Stable R univ (closIter R univ k (closGrow R univ s))
      rw [hgrow, closIter_of_stable hstab]
      exact hstab
    · have hlt := closMeasure_closGrow_lt (R := R) hfil
      exact ih (closGrow R univ s) (by omega)

theorem closSet_stable (R : String → String → Bool) (univ seed : List String) :
    Stable R univ (closSet R univ seed) := by
  apply closIter_stable
  exact List.countP_le_length _

theorem subset_closSet (R : String → String → Bool) (univ seed : List String) :
    seed ⊆ closSet R univ seed := subset_closIter R univ univ.length seed

/-- The one-step relation underlying `closSet`, as a proposition. -/
def StepIn (R : String → String → Bool) (univ : List String) (a b : String) : Prop :=
  R a b = true ∧ b ∈ univ

theorem mem_closIter_sound {R : String → String → Bool} {univ : List String} :
    ∀ (k : Nat) (s : List String) (b : String), b ∈ closIter R univ k s →
      b ∈ s ∨ ∃ a ∈ s, Relation.TransGen (StepIn R univ) a b := by
  intro k
  induction k with
  | zero => intro s b hb; exact Or.inl hb
  | succ k ih =>
    intro s b hb
    have hgrow : ∀ c, c ∈ closGrow R univ s →
        c ∈ s ∨ ∃ a ∈ s, Relation.TransGen (StepIn R univ) a c := by
      intro c hc
      rcases List.mem_append.mp hc with hcs | hcf
      · exact Or.inl hcs
      · have hcu : c ∈ univ := List.mem_of_mem_filter hcf
        have hcc := List.of_mem_filter hcf
        rw [Bool.and_eq_true] at hcc
        obtain ⟨_, hany⟩ := hcc
        rw [List.any_eq_true] at hany
        obtain ⟨a, ha, hR⟩ := hany
        exact Or.inr ⟨a, ha, Relation.TransGen.single ⟨hR, hcu⟩⟩
    rcases ih (closGrow R univ s) b hb with hbs | ⟨a, ha, htg⟩
    · exact hgrow b hbs
    · rcases hgrow a ha with has | ⟨a0, ha0, htg0⟩
      · exact Or.inr ⟨a, has, htg⟩
      · exact Or.inr ⟨a0, ha0, htg0.trans htg⟩

theorem mem_closSet_of_transGen {R : String → String → Bool} {univ seed : List String}
    {a b : String} (ha : a ∈ seed) (h : Relation.TransGen (StepIn R univ) a b) :
    b ∈ closSet R univ seed := by
  induction h with
  | single hstep =>
    exact closSet_stable R univ seed _ hstep.2 ⟨a, subset_closSet R univ seed ha, hstep.1⟩
  | tail _ hstep ih =>
    exact closSet_stable R univ seed _ hstep.2 ⟨_, ih, hstep.1⟩

/-- Membership in the reachability set, characterised by the transitive closure
of the step relation from the seed. -/
theorem mem_closSet_iff {R : String → String → Bool} {univ seed : List String} {b : String} :
    b ∈ closSet R univ seed ↔
      b ∈ seed ∨ ∃ a ∈ seed, Relation.TransGen (StepIn R univ) a b := by
  constructor
  · exact mem_closIter_sound univ.length seed b
  · rintro (hb | ⟨a, ha, htg⟩)
    · exact subset_closSet R univ seed hb
    · exact mem_closSet_of_transGen ha htg

/-! ## Array-based store: data model (`src/types.ts`) -/

/-- `ChatNode` from `src/types.ts`. `timestamp` is a JavaScript number used only
as an opaque value here. -/
structure ChatNode where
  id : String
  parentId : Option String
  projectId : String
  summary : String
  userPrompt : String
  assistantResponse : String
  timestamp : Nat
  isArchived : Bool
  isCollapsed : Bool
deriving Repr, DecidableEq

/-- Result record `{ updatedNodes, newActiveNodeId }` of the node mutation
helpers (`src/features/deletion/types.ts`). -/
structure NodeDeletionResult where
  updatedNodes : List ChatNode
  newActiveNodeId : Option String
deriving Repr, DecidableEq

/-- The child relation on ids induced by a node array: `ChildStep nodes a b`
holds when some node with id `b` has parent id `a`. -/
def ChildStep (nodes : List ChatNode) (a b : String) : Prop :=
  ∃ n, n ∈ nodes ∧ n.id = b ∧ n.parentId = some a

/-- `b` is the id of a (strict) descendant of the node with id `a`:
the transitive closure of the child relation. -/
def IsDesc (nodes : List ChatNode) (a b : String) : Prop :=
  Relation.TransGen (ChildStep nodes) a b

/-- The set of ids collected by the source's recursive
`findDescendants(nodeId)` helper (`src/features/deletion/utils.ts`,
`src/features/archive/utils.ts`): all ids reachable from `nodeId` through the
child relation.  The source computes it by recursion over a mutable visited
set; `closSet` computes the same set of ids. -/
def findDescendantIds (nodes : List ChatNode) (nodeId : String) : List String :=
  closSet (fun a b => nodes.any (fun n => n.id == b && n.parentId == some a))
    (nodes.map (·.id))
    ((nodes.filter (fun n => n.parentId == some nodeId)).map (·.id))

/-! ## Array-based store: mutation operations

Faithful translations of `src/features/deletion/utils.ts` and
`src/features/archive/utils.ts` (the identical ports in `src/utils/treeUtils.ts`
are covered by the same definitions). -/

namespace Deletion

/-- `deleteNodeOnly` (`src/features/deletion/utils.ts`): removes the node and
promotes its children to its parent. -/
def deleteNodeOnly (nodes : List ChatNode) (nodeId : String) (activeNodeId : Option String) :
    NodeDeletionResult :=
  match nodes.find? (fun n => n.id == nodeId) with
  | none => ⟨nodes, activeNodeId⟩
  | some nodeToDelete =>
    let updatedNodes :=
      (nodes.filter (fun n => !(n.id == nodeId))).map (fun node =>
        if node.parentId == some nodeId then { node with parentId := nodeToDelete.parentId }
        else node)
    let newActiveNodeId :=
      if activeNodeId == some nodeId then nodeToDelete.parentId else activeNodeId
    ⟨updatedNodes, newActiveNodeId⟩

/-- `deleteNodeWithChildren` (`src/features/deletion/utils.ts`): removes the
node and its entire subtree. -/
def deleteNodeWithChildren (nodes : List ChatNode) (nodeId : String)
    (activeNodeId : Option String) : NodeDeletionResult :=
  match nodes.find? (fun n => n.id == nodeId) with
  | none => ⟨nodes, activeNodeId⟩
  | some nodeToDelete =>
    let nodesToDelete := nodeId :: findDescendantIds nodes nodeId
    let updatedNodes := nodes.filter (fun n => !(nodesToDelete.contains n.id))
    let newActiveNodeId :=
      match activeNodeId with
      | some a => if nodesToDelete.contains a then nodeToDelete.parentId else activeNodeId
      | none => activeNodeId
    ⟨updatedNodes, newActiveNodeId⟩

/-- `deleteChildrenOnly` (`src/features/deletion/utils.ts`): removes every
descendant but keeps the node itself.  Note the source performs no existence
check on `nodeId`. -/
def deleteChildrenOnly (nodes : List ChatNode) (nodeId : String)
    (activeNodeId : Option String) : NodeDeletionResult :=
  let nodesToDelete := findDescendantIds nodes nodeId
  let updatedNodes := nodes.filter (fun n => !(nodesToDelete.contains n.id))
  let newActiveNodeId :=
    match activeNodeId with
    | some a => if nodesToDelete.contains a then some nodeId else activeNodeId
    | none => activeNodeId
  ⟨updatedNodes, newActiveNodeId⟩

end Deletion

namespace Archive

/-- `archiveNodeOnly` (`src/features/archive/utils.ts`): archives the node and
promotes its children to its parent. -/
def archiveNodeOnly (nodes : List ChatNode) (nodeId : String) (activeNodeId : Option String) :
    NodeDeletionResult :=
  match nodes.find? (fun n => n.id == nodeId) with
  | none => ⟨nodes, activeNodeId⟩
  | some nodeToArchive =>
    let updatedNodes := nodes.map (fun node =>
      if node.id == nodeId then { node with isArchived := true }
      else if node.parentId == some nodeId then { node with parentId := nodeToArchive.parentId }
      else node)
    let newActiveNodeId :=
      if activeNodeId == some nodeId then nodeToArchive.parentId else activeNodeId
    ⟨updatedNodes, newActiveNodeId⟩

/-- `archiveNodeWithChildren` (`src/features/archive/utils.ts`): archives the
node and all its descendants. -/
def archiveNodeWithChildren (nodes : List ChatNode) (nodeId : String)
    (activeNodeId : Option String) : NodeDeletionResult :=
  match nodes.find? (fun n => n.id == nodeId) with
  | none => ⟨nodes, activeNodeId⟩
  | some nodeToArchive =>
    let nodesToArchive := nodeId :: findDescendantIds nodes nodeId
    let updatedNodes := nodes.map (fun node =>
      if nodesToArchive.contains node.id then { node with isArchived := true } else node)
    let newActiveNodeId :=
      match activeNodeId with
      | some a => if nodesToArchive.contains a then nodeToArchive.parentId else activeNodeId
      | none => activeNodeId
    ⟨updatedNodes, newActiveNodeId⟩

/-- `archiveChildrenOnly` (`src/features/archive/utils.ts`): archives every
descendant but keeps the node itself active.  No existence check on `nodeId`. -/
def archiveChildrenOnly (nodes : List ChatNode) (nodeId : String)
    (activeNodeId : Option String) : NodeDeletionResult :=
  let nodesToArchive := findDescendantIds nodes nodeId
  let updatedNodes := nodes.map (fun node =>
    if nodesToArchive.contains node.id then { node with isArchived := true } else node)
  let newActiveNodeId :=
    match activeNodeId with
    | some a => if nodesToArchive.contains a then some nodeId else activeNodeId
    | none => activeNodeId
  ⟨updatedNodes, newActiveNodeId⟩

/-- `unarchiveNodeWithChildren` (`src/features/archive/utils.ts`): sets
`isArchived = false` on the node and every descendant.  No existence check. -/
def unarchiveNodeWithChildren (nodes : List ChatNode) (nodeId : String) : List ChatNode :=
  let nodesToUnarchive := nodeId :: findDescendantIds nodes nodeId
  nodes.map (fun node =>
    if nodesToUnarchive.contains node.id then { node with isArchived := false } else node)

end Archive

/-! ## Array-based store: well-formedness -/

/-- All node ids are distinct (a node collection is an id-keyed collection;
see §6 of the spec: "a flat collection of ConversationNode records … keyed by
id"). -/
def NodupIds (nodes : List ChatNode) : Prop :=
  (nodes.map (·.id)).Nodup

/-- Spec §3 invariant 1: every non-null `parentId` refers to an existing node. -/
def ParentValid (nodes : List ChatNode) : Prop :=
  ∀ n ∈ nodes, match n.parentId with
    | some p => p ∈ nodes.map (·.id)
    | none => True

/-- No id is a strict descendant of itself (the collection is a forest, not a
graph with parent cycles).  Stated over the ids occurring in the collection,
which makes it decidable; `acyclic_all` extends it to all strings. -/
def Acyclic (nodes : List ChatNode) : Prop :=
  ∀ a ∈ nodes.map (·.id), ¬ IsDesc nodes a a

/-- Well-formed array collection: unique ids, valid parent references, no
parent cycles. -/
def ArrayWF (nodes : List ChatNode) : Prop :=
  NodupIds nodes ∧ ParentValid nodes ∧ Acyclic nodes

/-- Membership in `findDescendantIds` is exactly strict descendancy. -/
theorem mem_findDescendantIds {nodes : List ChatNode} {nodeId b : String} :
    b ∈ findDescendantIds nodes nodeId ↔ IsDesc nodes nodeId b := by
  unfold findDescendantIds
  rw [mem_closSet_iff]
  have hstep : ∀ x y : String,
      StepIn (fun a b => nodes.any (fun n => n.id == b && n.parentId == some a))
        (nodes.map (·.id)) x y ↔ ChildStep nodes x y := by
    intro x y
    constructor
    · rintro ⟨hR, _⟩
      rw [List.any_eq_true] at hR
      obtain ⟨n, hn, hcond⟩ := hR
      rw [Bool.and_eq_true, beq_iff_eq, beq_iff_eq] at hcond
      exact ⟨n, hn, hcond.1, hcond.2⟩
    · rintro ⟨n, hn, hid, hpar⟩
      constructor
      · rw [List.any_eq_true]
        exact ⟨n, hn, by rw [Bool.and_eq_true, beq_iff_eq, beq_iff_eq]; exact ⟨hid, hpar⟩⟩
      · exact hid ▸ List.mem_map_of_mem _ hn
  have hseed : ∀ x : String,
      (x ∈ (nodes.filter (fun n => n.parentId == some nodeId)).map (·.id)) ↔
        ChildStep nodes nodeId x := by
    intro x
    rw [List.mem_map]
    constructor
    · rintro ⟨n, hn, hid⟩
      have hmem := List.mem_of_mem_filter hn
      have hpar := List.of_mem_filter hn
      rw [beq_iff_eq] at hpar
      exact ⟨n, hmem, hid, hpar⟩
    · rintro ⟨n, hn, hid, hpar⟩
      exact ⟨n, List.mem_filter.mpr ⟨hn, by rw [beq_iff_eq]; exact hpar⟩, hid⟩
  constructor
  · rintro (hb | ⟨a, ha, htg⟩)
    · exact Relation.TransGen.single ((hseed b).mp hb)
    · have h1 : IsDesc nodes nodeId a := Relation.TransGen.single ((hseed a).mp ha)
      have h2 : Relation.TransGen (ChildStep nodes) a b := by
        refine Relation.TransGen.mono ?_ htg
        intro x y hxy
        exact (hstep x y).mp hxy
      exact h1.trans h2
  · intro htg
    rcases (Relation.TransGen.head'_iff).mp htg with ⟨c, hc, hrest⟩
    rcases (Relation.reflTransGen_iff_eq_or_transGen.mp hrest) with heq | htg'
    · exact Or.inl ((hseed b).mpr (heq ▸ hc))
    · refine Or.inr ⟨c, (hseed c).mpr hc, ?_⟩
      refine Relation.TransGen.mono ?_ htg'
      intro x y hxy
      exact (hstep x y).mpr hxy

instance (nodes : List ChatNode) (a b : String) : Decidable (IsDesc nodes a b) :=
  decidable_of_iff (b ∈ findDescendantIds nodes a) mem_findDescendantIds

instance (nodes : List ChatNode) : Decidable (Acyclic nodes) := by
  unfold Acyclic
  infer_instance

instance (nodes : List ChatNode) : Decidable (ParentValid nodes) := by
  unfold ParentValid
  have : ∀ n : ChatNode, Decidable (match n.parentId with
    | some p => p ∈ nodes.map (·.id)
    | none => True) := by
    intro n
    cases n.parentId
    · exact inferInstanceAs (Decidable True)
    · exact inferInstanceAs (Decidable (_ ∈ _))
  exact List.decidableBAll _ nodes

/-! ### Helper lemmas for the array world -/

theorem transGen_lift {α : Type} {r s : α → α → Prop}
    (h : ∀ a b, r a b → Relation.TransGen s a b) {a b : α}
    (htg : Relation.TransGen r a b) : Relation.TransGen s a b := by
  induction htg with
  | single h1 => exact h _ _ h1
  | tail _ h1 ih => exact ih.trans (h _ _ h1)

theorem acyclic_all {nodes : List ChatNode} (h : Acyclic nodes) :
    ∀ a, ¬ IsDesc nodes a a := by
  intro a htg
  have ha : a ∈ nodes.map (·.id) := by
    rcases (Relation.TransGen.tail'_iff).mp htg with ⟨c, _, hedge⟩
    obtain ⟨n, hn, hid, _⟩ := hedge
    exact hid ▸ List.mem_map_of_mem _ hn
  exact h a ha htg

theorem find?_props {nodes : List ChatNode} {nodeId : String} {nd : ChatNode}
    (h : nodes.find? (fun n => n.id == nodeId) = some nd) :
    nd ∈ nodes ∧ nd.id = nodeId := by
  refine ⟨List.mem_of_find?_eq_some h, ?_⟩
  have := List.find?_some h
  rwa [beq_iff_eq] at this

theorem find?_some_of_mem {nodes : List ChatNode} (h : NodupIds nodes) {n : ChatNode}
    (hn : n ∈ nodes) : nodes.find? (fun x => x.id == n.id) = some n := by
  induction nodes with
  | nil => cases hn
  | cons c l ih =>
    unfold NodupIds at h
    rw [List.map_cons, List.nodup_cons] at h
    obtain ⟨hcid, hl⟩ := h
    rcases List.mem_cons.mp hn with hc | hmem
    · subst hc
      simp [List.find?_cons]
    · have hne : (c.id == n.id) = false := by
        rw [beq_eq_false_iff_ne]
        intro heq
        exact hcid (heq ▸ List.mem_map_of_mem _ hmem)
      rw [List.find?_cons, hne]
      exact ih hl hmem

theorem mem_ids_iff {nodes : List ChatNode} {x : String} :
    x ∈ nodes.map (·.id) ↔ ∃ n, n ∈ nodes ∧ n.id = x := by
  rw [List.mem_map]

/-- The descendant-id set is closed downwards: a node whose parent id lies in
`nodeId :: findDescendantIds nodes nodeId` has its own id in
`findDescendantIds nodes nodeId`. -/
theorem findDescendantIds_closed {nodes : List ChatNode} {nodeId : String} {x : ChatNode}
    (hx : x ∈ nodes) {p : String} (hp : x.parentId = some p)
    (hpS : p ∈ nodeId :: findDescendantIds nodes nodeId) :
    x.id ∈ findDescendantIds nodes nodeId := by
  have hedge : ChildStep nodes p x.id := ⟨x, hx, rfl, hp⟩
  rcases List.mem_cons.mp hpS with hpn | hpS'
  · subst hpn
    exact mem_findDescendantIds.mpr (Relation.TransGen.single hedge)
  · exact mem_findDescendantIds.mpr ((mem_findDescendantIds.mp hpS').tail hedge)

theorem nodupIds_filter {nodes : List ChatNode} (h : NodupIds nodes) (p : ChatNode → Bool) :
    NodupIds (nodes.filter p) := by
  unfold NodupIds at h ⊢
  exact List.Nodup.sublist ((List.filter_sublist nodes).map _) h

theorem nodupIds_map_of_id {nodes : List ChatNode} {f : ChatNode → ChatNode}
    (hf : ∀ n ∈ nodes, (f n).id = n.id) (h : NodupIds nodes) : NodupIds (nodes.map f) := by
  unfold NodupIds at h ⊢
  rw [List.map_map]
  have : nodes.map ((·.id) ∘ f) = nodes.map (·.id) := by
    apply List.map_congr_left
    intro n hn
    exact hf n hn
  rw [this]
  exact h

theorem childStep_map_iff {nodes : List ChatNode} {f : ChatNode → ChatNode}
    (hf : ∀ n ∈ nodes, (f n).id = n.id ∧ (f n).parentId = n.parentId) :
    ∀ a b, ChildStep (nodes.map f) a b ↔ ChildStep nodes a b := by
  intro a b
  constructor
  · rintro ⟨m, hm, hid, hpar⟩
    rw [List.mem_map] at hm
    obtain ⟨n, hn, hfn⟩ := hm
    obtain ⟨h1, h2⟩ := hf n hn
    subst hfn
    exact ⟨n, hn, by rw [← h1, hid], by rw [← h2, hpar]⟩
  · rintro ⟨n, hn, hid, hpar⟩
    obtain ⟨h1, h2⟩ := hf n hn
    exact ⟨f n, List.mem_map_of_mem f hn, by rw [h1, hid], by rw [h2, hpar]⟩

theorem isDesc_map_iff {nodes : List ChatNode} {f : ChatNode → ChatNode}
    (hf : ∀ n ∈ nodes, (f n).id = n.id ∧ (f n).parentId = n.parentId) :
    ∀ a b, IsDesc (nodes.map f) a b ↔ IsDesc nodes a b := by
  intro a b
  constructor
  · intro h
    exact transGen_lift (fun x y hxy => Relation.TransGen.single ((childStep_map_iff hf x y).mp hxy)) h
  · intro h
    exact transGen_lift (fun x y hxy => Relation.TransGen.single ((childStep_map_iff hf x y).mpr hxy)) h

theorem findDescendantIds_map_eq {nodes : List ChatNode} {f : ChatNode → ChatNode}
    (hf : ∀ n ∈ nodes, (f n).id = n.id ∧ (f n).parentId = n.parentId) (nodeId : String) :
    ∀ b, b ∈ findDescendantIds (nodes.map f) nodeId ↔ b ∈ findDescendantIds nodes nodeId := by
  intro b
  rw [mem_findDescendantIds, mem_findDescendantIds]
  exact isDesc_map_iff hf nodeId b

instance (nodes : List ChatNode) : Decidable (NodupIds nodes) := by
  unfold NodupIds
  infer_instance

theorem parentValid_iff {nodes : List ChatNode} :
    ParentValid nodes ↔ ∀ n ∈ nodes, ∀ p, n.parentId = some p → p ∈ nodes.map (·.id) := by
  unfold ParentValid
  constructor
  · intro h n hn p hp
    have := h n hn
    simp only [hp] at this
    exact this
  · intro h n hn
    cases hpar : n.parentId with
    | none => trivial
    | some p => exact h n hn p hpar

theorem acyclic_of_edge_lift {nodes nodes' : List ChatNode}
    (h : ∀ a b, ChildStep nodes' a b → Relation.TransGen (ChildStep nodes) a b)
    (hacyc : Acyclic nodes) : Acyclic nodes' := by
  intro a _ htg
  exact acyclic_all hacyc a (transGen_lift h htg)

theorem ids_map_of_id {nodes : List ChatNode} {f : ChatNode → ChatNode}
    (hf : ∀ n ∈ nodes, (f n).id = n.id) :
    (nodes.map f).map (·.id) = nodes.map (·.id) := by
  rw [List.map_map]
  exact List.map_congr_left (fun n hn => hf n hn)

theorem parentValid_map_of_fields {nodes : List ChatNode} {f : ChatNode → ChatNode}
    (hf : ∀ n ∈ nodes, (f n).id = n.id ∧ (f n).parentId = n.parentId)
    (h : ParentValid nodes) : ParentValid (nodes.map f) := by
  rw [parentValid_iff] at h ⊢
  intro n' hn' p hp
  rw [List.mem_map] at hn'
  obtain ⟨n, hn, hfn⟩ := hn'
  obtain ⟨_, h2⟩ := hf n hn
  rw [ids_map_of_id (fun n hn => (hf n hn).1)]
  exact h n hn p (by rw [← h2, hfn, hp])

/-- A map that keeps `id` and `parentId` of every node preserves well-formedness. -/
theorem arrayWF_map_of_fields {nodes : List ChatNode} {f : ChatNode → ChatNode}
    (hf : ∀ n ∈ nodes, (f n).id = n.id ∧ (f n).parentId = n.parentId)
    (h : ArrayWF nodes) : ArrayWF (nodes.map f) := by
  obtain ⟨hnd, hval, hacyc⟩ := h
  refine ⟨nodupIds_map_of_id (fun n hn => (hf n hn).1) hnd,
    parentValid_map_of_fields hf hval, ?_⟩
  intro a ha htg
  rw [ids_map_of_id (fun n hn => (hf n hn).1)] at ha
  exact hacyc a ha ((isDesc_map_iff hf a a).mp htg)

/-- Removing a downward-closed set of ids preserves well-formedness. -/
theorem arrayWF_filter_closed {nodes : List ChatNode} {L : List String}
    (hclosed : ∀ x ∈ nodes, ∀ p, x.parentId = some p → p ∈ L → x.id ∈ L)
    (h : ArrayWF nodes) :
    ArrayWF (nodes.filter (fun n => !(L.contains n.id))) := by
  obtain ⟨hnd, hval, hacyc⟩ := h
  refine ⟨nodupIds_filter hnd _, ?_, ?_⟩
  · rw [parentValid_iff]
    intro n hn p hp
    have hn' : n ∈ nodes := List.mem_of_mem_filter hn
    have hkeep := List.of_mem_filter hn
    rw [Bool.not_eq_true'] at hkeep
    have hpnot : p ∉ L := by
      intro hpL
      have hmem := hclosed n hn' p hp hpL
      rw [← contains_iff] at hmem
      rw [hmem] at hkeep
      cases hkeep
    have hvp := (parentValid_iff.mp hval) n hn' p hp
    obtain ⟨m, hm, hmid⟩ := mem_ids_iff.mp hvp
    refine mem_ids_iff.mpr ⟨m, List.mem_filter.mpr ⟨hm, ?_⟩, hmid⟩
    rw [Bool.not_eq_true']
    cases hc : L.contains m.id
    · rfl
    · exact absurd (hmid ▸ contains_iff.mp hc) hpnot
  · refine acyclic_of_edge_lift ?_ hacyc
    intro a b hab
    obtain ⟨n, hn, hid, hpar⟩ := hab
    exact Relation.TransGen.single ⟨n, List.mem_of_mem_filter hn, hid, hpar⟩

theorem wf_deleteNodeWithChildren {nodes : List ChatNode} {nodeId : String}
    {active : Option String} (h : ArrayWF nodes) :
    ArrayWF (Deletion.deleteNodeWithChildren nodes nodeId active).updatedNodes := by
  unfold Deletion.deleteNodeWithChildren
  cases hfind : nodes.find? (fun n => n.id == nodeId) with
  | none => exact h
  | some nd =>
    simp only
    apply arrayWF_filter_closed _ h
    intro x hx p hp hpL
    exact List.mem_cons_of_mem _ (findDescendantIds_closed hx hp hpL)

theorem wf_deleteChildrenOnly {nodes : List ChatNode} {nodeId : String}
    {active : Option String} (h : ArrayWF nodes) :
    ArrayWF (Deletion.deleteChildrenOnly nodes nodeId active).updatedNodes := by
  unfold Deletion.deleteChildrenOnly
  simp only
  apply arrayWF_filter_closed _ h
  intro x hx p hp hpL
  exact findDescendantIds_closed hx hp (List.mem_cons_of_mem _ hpL)

theorem wf_archiveNodeWithChildren {nodes : List ChatNode} {nodeId : String}
    {active : Option String} (h : ArrayWF nodes) :
    ArrayWF (Archive.archiveNodeWithChildren nodes nodeId active).updatedNodes := by
  unfold Archive.archiveNodeWithChildren
  cases hfind : nodes.find? (fun n => n.id == nodeId) with
  | none => exact h
  | some nd =>
    simp only
    apply arrayWF_map_of_fields _ h
    intro n _
    by_cases hc : ((nodeId :: findDescendantIds nodes nodeId).contains n.id) = true
    · rw [if_pos hc]
      exact ⟨rfl, rfl⟩
    · rw [if_neg hc]
      exact ⟨rfl, rfl⟩

theorem wf_archiveChildrenOnly {nodes : List ChatNode} {nodeId : String}
    {active : Option String} (h : ArrayWF nodes) :
    ArrayWF (Archive.archiveChildrenOnly nodes nodeId active).updatedNodes := by
  unfold Archive.archiveChildrenOnly
  simp only
  apply arrayWF_map_of_fields _ h
  intro n _
  by_cases hc : ((findDescendantIds nodes nodeId).contains n.id) = true
  · rw [if_pos hc]
    exact ⟨rfl, rfl⟩
  · rw [if_neg hc]
    exact ⟨rfl, rfl⟩

theorem wf_unarchiveNodeWithChildren {nodes : List ChatNode} {nodeId : String}
    (h : ArrayWF nodes) :
    ArrayWF (Archive.unarchiveNodeWithChildren nodes nodeId) := by
  unfold Archive.unarchiveNodeWithChildren
  simp only
  apply arrayWF_map_of_fields _ h
  intro n _
  by_cases hc : ((nodeId :: findDescendantIds nodes nodeId).contains n.id) = true
  · rw [if_pos hc]
    exact ⟨rfl, rfl⟩
  · rw [if_neg hc]
    exact ⟨rfl, rfl⟩

theorem wf_deleteNodeOnly {nodes : List ChatNode} {nodeId : String}
    {active : Option String} (h : ArrayWF nodes) :
    ArrayWF (Deletion.deleteNodeOnly nodes nodeId active).updatedNodes := by
  unfold Deletion.deleteNodeOnly
  cases hfind : nodes.find? (fun n => n.id == nodeId) with
  | none => exact h
  | some nd =>
    simp only
    obtain ⟨hndmem, hndid⟩ := find?_props hfind
    obtain ⟨hnd, hval, hacyc⟩ := h
    have hparne : nd.parentId ≠ some nodeId := by
      intro hpar
      exact acyclic_all hacyc nodeId
        (Relation.TransGen.single ⟨nd, hndmem, hndid, hpar⟩)
    set g : ChatNode → ChatNode := fun node =>
      if node.parentId == some nodeId then { node with parentId := nd.parentId } else node
      with hg
    have hgid : ∀ n, (g n).id = n.id := by
      intro n
      rw [hg]
      beta_reduce
      by_cases hc : (n.parentId == some nodeId) = true
      · rw [if_pos hc]
      · rw [if_neg hc]
    have hflt : ∀ n ∈ nodes.filter (fun n => !(n.id == nodeId)), n ∈ nodes ∧ n.id ≠ nodeId := by
      intro n hn
      refine ⟨List.mem_of_mem_filter hn, ?_⟩
      have hkeep := List.of_mem_filter hn
      rw [Bool.not_eq_true', beq_eq_false_iff_ne] at hkeep
      exact hkeep
    refine ⟨?_, ?_, ?_⟩
    · exact nodupIds_map_of_id (fun n _ => hgid n) (nodupIds_filter hnd _)
    · rw [parentValid_iff]
      intro n' hn' p hp
      rw [ids_map_of_id (fun n _ => hgid n)]
      rw [List.mem_map] at hn'
      obtain ⟨n, hnf, hgn⟩ := hn'
      obtain ⟨hnmem, hnne⟩ := hflt n hnf
      have hpne : p ≠ nodeId := by
        rw [hg] at hgn
        beta_reduce at hgn
        by_cases hc : (n.parentId == some nodeId) = true
        · rw [if_pos hc] at hgn
          intro hpeq
          apply hparne
          rw [← hgn] at hp
          simp only at hp
          rw [hp, hpeq]
        · rw [if_neg hc] at hgn
          intro hpeq
          rw [← hgn] at hp
          exact hc (by rw [beq_iff_eq, hp, hpeq])
      have hpold : p ∈ nodes.map (·.id) := by
        rw [hg] at hgn
        beta_reduce at hgn
        by_cases hc : (n.parentId == some nodeId) = true
        · rw [if_pos hc] at hgn
          rw [← hgn] at hp
          simp only at hp
          exact (parentValid_iff.mp hval) nd hndmem p (by rw [← hp])
        · rw [if_neg hc] at hgn
          rw [← hgn] at hp
          exact (parentValid_iff.mp hval) n hnmem p hp
      obtain ⟨m, hm, hmid⟩ := mem_ids_iff.mp hpold
      refine mem_ids_iff.mpr ⟨m, List.mem_filter.mpr ⟨hm, ?_⟩, hmid⟩
      rw [Bool.not_eq_true', beq_eq_false_iff_ne]
      rw [hmid]
      exact hpne
    · refine acyclic_of_edge_lift ?_ hacyc
      intro a b hab
      obtain ⟨n', hn', hid, hpar⟩ := hab
      rw [List.mem_map] at hn'
      obtain ⟨n, hnf, hgn⟩ := hn'
      obtain ⟨hnmem, _⟩ := hflt n hnf
      rw [hg] at hgn
      beta_reduce at hgn
      by_cases hc : (n.parentId == some nodeId) = true
      · rw [if_pos hc] at hgn
        rw [beq_iff_eq] at hc
        rw [← hgn] at hid hpar
        simp only at hid hpar
        have e1 : ChildStep nodes a nodeId := ⟨nd, hndmem, hndid, by rw [hpar]⟩
        have e2 : ChildStep nodes nodeId b := ⟨n, hnmem, hid, hc⟩
        exact (Relation.TransGen.single e1).tail e2
      · rw [if_neg hc] at hgn
        rw [← hgn] at hid hpar
        exact Relation.TransGen.single ⟨n, hnmem, hid, hpar⟩

theorem wf_archiveNodeOnly {nodes : List ChatNode} {nodeId : String}
    {active : Option String} (h : ArrayWF nodes) :
    ArrayWF (Archive.archiveNodeOnly nodes nodeId active).updatedNodes := by
  unfold Archive.archiveNodeOnly
  cases hfind : nodes.find? (fun n => n.id == nodeId) with
  | none => exact h
  | some nd =>
    simp only
    obtain ⟨hndmem, hndid⟩ := find?_props hfind
    obtain ⟨hnd, hval, hacyc⟩ := h
    set g : ChatNode → ChatNode := fun node =>
      if node.id == nodeId then { node with isArchived := true }
      else if node.parentId == some nodeId then { node with parentId := nd.parentId }
      else node
      with hg
    have hgid : ∀ n, (g n).id = n.id := by
      intro n
      rw [hg]
      beta_reduce
      by_cases hc1 : (n.id == nodeId) = true
      · rw [if_pos hc1]
      · rw [if_neg hc1]
        by_cases hc2 : (n.parentId == some nodeId) = true
        · rw [if_pos hc2]
        · rw [if_neg hc2]
    refine ⟨nodupIds_map_of_id (fun n _ => hgid n) hnd, ?_, ?_⟩
    · rw [parentValid_iff]
      intro n' hn' p hp
      rw [ids_map_of_id (fun n _ => hgid n)]
      rw [List.mem_map] at hn'
      obtain ⟨n, hnmem, hgn⟩ := hn'
      rw [hg] at hgn
      beta_reduce at hgn
      by_cases hc1 : (n.id == nodeId) = true
      · rw [if_pos hc1] at hgn
        rw [← hgn] at hp
        simp only at hp
        exact (parentValid_iff.mp hval) n hnmem p hp
      · rw [if_neg hc1] at hgn
        by_cases hc2 : (n.parentId == some nodeId) = true
        · rw [if_pos hc2] at hgn
          rw [← hgn] at hp
          simp only at hp
          exact (parentValid_iff.mp hval) nd hndmem p (by rw [← hp])
        · rw [if_neg hc2] at hgn
          rw [← hgn] at hp
          exact (parentValid_iff.mp hval) n hnmem p hp
    · refine acyclic_of_edge_lift ?_ hacyc
      intro a b hab
      obtain ⟨n', hn', hid, hpar⟩ := hab
      rw [List.mem_map] at hn'
      obtain ⟨n, hnmem, hgn⟩ := hn'
      rw [hg] at hgn
      beta_reduce at hgn
      by_cases hc1 : (n.id == nodeId) = true
      · rw [if_pos hc1] at hgn
        rw [← hgn] at hid hpar
        simp only at hid hpar
        exact Relation.TransGen.single ⟨n, hnmem, hid, hpar⟩
      · rw [if_neg hc1] at hgn
        by_cases hc2 : (n.parentId == some nodeId) = true
        · rw [if_pos hc2] at hgn
          rw [beq_iff_eq] at hc2
          rw [← hgn] at hid hpar
          simp only at hid hpar
          have e1 : ChildStep nodes a nodeId := ⟨nd, hndmem, hndid, by rw [hpar]⟩
          have e2 : ChildStep nodes nodeId b := ⟨n, hnmem, hid, hc2⟩
          exact (Relation.TransGen.single e1).tail e2
        · rw [if_neg hc2] at hgn
          rw [← hgn] at hid hpar
          exact Relation.TransGen.single ⟨n, hnmem, hid, hpar⟩

instance (nodes : List ChatNode) : Decidable (ArrayWF nodes) := by
  unfold ArrayWF
  infer_instance

/-! ### Operation sequences over the array store -/

/-- The array-store mutation operations named by the spec's invariant claim. -/
inductive ArrayOp where
  | deleteOnly (nodeId : String)
  | deleteWith (nodeId : String)
  | deleteChildren (nodeId : String)
  | archiveOnly (nodeId : String)
  | archiveWith (nodeId : String)
  | archiveChildren (nodeId : String)
  | unarchiveWith (nodeId : String)
deriving Repr, DecidableEq

/-- Apply one operation to a `(nodes, activeNodeId)` snapshot. -/
def applyArrayOp (s : List ChatNode × Option String) : ArrayOp → List ChatNode × Option String
  | .deleteOnly i =>
    let r := Deletion.deleteNodeOnly s.1 i s.2
    (r.updatedNodes, r.newActiveNodeId)
  | .deleteWith i =>
    let r := Deletion.deleteNodeWithChildren s.1 i s.2
    (r.updatedNodes, r.newActiveNodeId)
  | .deleteChildren i =>
    let r := Deletion.deleteChildrenOnly s.1 i s.2
    (r.updatedNodes, r.newActiveNodeId)
  | .archiveOnly i =>
    let r := Archive.archiveNodeOnly s.1 i s.2
    (r.updatedNodes, r.newActiveNodeId)
  | .archiveWith i =>
    let r := Archive.archiveNodeWithChildren s.1 i s.2
    (r.updatedNodes, r.newActiveNodeId)
  | .archiveChildren i =>
    let r := Archive.archiveChildrenOnly s.1 i s.2
    (r.updatedNodes, r.newActiveNodeId)
  | .unarchiveWith i => (Archive.unarchiveNodeWithChildren s.1 i, s.2)

/-- Apply a sequence of operations left to right. -/
def applyArrayOps (s : List ChatNode × Option String) (ops : List ArrayOp) :
    List ChatNode × Option String :=
  ops.foldl applyArrayOp s

theorem wf_applyArrayOp {s : List ChatNode × Option String} (op : ArrayOp)
    (h : ArrayWF s.1) : ArrayWF (applyArrayOp s op).1 := by
  cases op with
  | deleteOnly i => exact wf_deleteNodeOnly h
  | deleteWith i => exact wf_deleteNodeWithChildren h
  | deleteChildren i => exact @wf_deleteChildrenOnly s.1 i s.2 h
  | archiveOnly i => exact wf_archiveNodeOnly h
  | archiveWith i => exact wf_archiveNodeWithChildren h
  | archiveChildren i => exact @wf_archiveChildrenOnly s.1 i s.2 h
  | unarchiveWith i => exact wf_unarchiveNodeWithChildren h

theorem wf_applyArrayOps {s : List ChatNode × Option String} (ops : List ArrayOp)
    (h : ArrayWF s.1) : ArrayWF (applyArrayOps s ops).1 := by
  induction ops generalizing s with
  | nil => exact h
  | cons op ops ih => exact ih (wf_applyArrayOp op h)

/-! ## Map-based store: data model (`src/src/types/tree.ts`) -/

/-- Message roles of `src/src/types/tree.ts`. -/
inductive Role where
  | user
  | assistant
  | system
deriving Repr, DecidableEq

/-- `Message` from `src/src/types/tree.ts`. -/
structure Message where
  role : Role
  content : String
  timestamp : Nat
deriving Repr, DecidableEq

/-- `ConversationNode` from `src/src/types/tree.ts`. -/
structure ConversationNode where
  id : String
  projectId : String
  userMessage : Message
  assistantMessage : Option Message
  parentId : Option String
  childIds : List String
  summary : String
  isArchived : Bool
  isCollapsed : Bool
  createdAt : Nat
deriving Repr, DecidableEq

/-- The zustand store's `nodes : Map<string, ConversationNode>`, modelled as an
association list with JavaScript `Map` semantics: `get` returns the (unique)
entry for a key, `set` replaces in place or appends, `delete` removes. -/
abbrev NodeMap : Type := List (String × ConversationNode)

/-- JavaScript `Map.get`: the value of the (first, hence unique) entry for the
key. -/
def mapGet : NodeMap → String → Option ConversationNode
  | [], _ => none
  | p :: m, k => if p.1 == k then some p.2 else mapGet m k

/-- JavaScript `Map.has`. -/
def mapHas (m : NodeMap) (k : String) : Bool :=
  (mapGet m k).isSome

def mapSet (m : NodeMap) (k : String) (v : ConversationNode) : NodeMap :=
  if mapHas m k then List.map (fun p => if p.1 == k then (k, v) else p) m
  else m ++ [(k, v)]

def mapKeys (m : NodeMap) : List String := List.map (·.1) m

/-! ## Map-based store: operations (`createNode`, `setAssistantMessage`,
`deleteNode` of the zustand conversation store) -/

namespace Store

/-- The summary computed by `createNode`:
`userMessage.content.slice(0, 50) + (userMessage.content.length > 50 ? '…' : '')`. -/
def summarize (content : String) : String :=
  content.take 50 ++ (if content.length > 50 then "..." else "")

/-- `createNode` of the conversation store.  The source obtains the fresh id
from `generateId()` and the creation time from `Date.now()`; both are external
inputs and are passed as the parameters `newId` and `now`.  The project-store
update (`rootNodeId` / `activeNodeId`) is outside the node map and not
modelled. -/
def createNode (nodes : NodeMap) (projectId : String) (userMessage : Message)
    (parentId : Option String) (newId : String) (now : Nat) : NodeMap :=
  let node : ConversationNode :=
    { id := newId, projectId := projectId, userMessage := userMessage,
      assistantMessage := none, parentId := parentId, childIds := [],
      summary := summarize userMessage.content, isArchived := false,
      isCollapsed := false, createdAt := now }
  let m1 := mapSet nodes newId node
  match parentId with
  | none => m1
  | some pid =>
    match mapGet m1 pid with
    | none => m1
    | some parent => mapSet m1 pid { parent with childIds := parent.childIds ++ [newId] }

/-- `setAssistantMessage` of the conversation store: a no-op when the node no
longer exists. -/
def setAssistantMessage (nodes : NodeMap) (nodeId : String) (message : Message) : NodeMap :=
  match mapGet nodes nodeId with
  | none => nodes
  | some node => mapSet nodes nodeId { node with assistantMessage := some message }

/-- The set of ids collected by `deleteNode`'s breadth-first walk over
`childIds` (the node itself plus everything reachable through `childIds` of
existing nodes).  The source also inserts ids of missing children into its
`Set`; deleting a missing key is a no-op on the map, so only ids of existing
nodes matter and `closSet` collects exactly those (plus the seed `childIds`
list itself, which the walk also inserts). -/
def deleteSet (nodes : NodeMap) (id : String) (node : ConversationNode) : List String :=
  id :: closSet
    (fun a b => match mapGet nodes a with
      | some n => n.childIds.contains b
      | none => false)
    (mapKeys nodes) node.childIds

/-- `deleteNode` of the conversation store: removes the node and its entire
`childIds`-subtree and removes the id from its parent's `childIds`. -/
def deleteNode (nodes : NodeMap) (id : String) : NodeMap :=
  match mapGet nodes id with
  | none => nodes
  | some node =>
    let toDelete := deleteSet nodes id node
    let m1 :=
      match node.parentId with
      | none => nodes
      | some pid =>
        match mapGet nodes pid with
        | none => nodes
        | some parent =>
          mapSet nodes pid { parent with childIds := parent.childIds.filter (fun c => !(c == id)) }
    List.filter (fun p => !(toDelete.contains p.1)) m1

end Store

/-! ## Map-based store: well-formedness -/

/-- The keys of the map are distinct (inherent to a JavaScript `Map`). -/
def MapKeysNodup (m : NodeMap) : Prop := (mapKeys m).Nodup

/-- Every entry is keyed by its node's own id (the store always calls
`set(node.id, node)`). -/
def MapIdMatch (m : NodeMap) : Prop := ∀ p ∈ m, p.2.id = p.1

/-- Spec §3 invariant 1 for the map store: every non-null `parentId` is a key. -/
def MapParentValid (m : NodeMap) : Prop :=
  ∀ p ∈ m, match p.2.parentId with
    | some q => mapHas m q = true
    | none => True

/-- Spec §3 invariant 2: `childIds` of a node is exactly the set of nodes whose
`parentId` equals that node's id. -/
def MapConsistent (m : NodeMap) : Prop :=
  ∀ p ∈ m,
    (∀ c ∈ p.2.childIds, ∃ n, mapGet m c = some n ∧ n.parentId = some p.1) ∧
    (∀ q ∈ m, q.2.parentId = some p.1 → q.1 ∈ p.2.childIds)

/-- Well-formed map store. -/
def MapWF (m : NodeMap) : Prop :=
  MapKeysNodup m ∧ MapIdMatch m ∧ MapParentValid m ∧ MapConsistent m

/-! ### Base lemmas about the association-list map -/

theorem mapGet_cons {p : String × ConversationNode} {m : NodeMap} {k : String} :
    mapGet (p :: m) k = (if p.1 == k then some p.2 else mapGet m k) := rfl

theorem mapHas_iff_mem_keys {m : NodeMap} {k : String} :
    mapHas m k = true ↔ k ∈ mapKeys m := by
  induction m with
  | nil =>
    unfold mapHas mapGet mapKeys
    simp
  | cons p m ih =>
    unfold mapHas at ih ⊢
    rw [mapGet_cons]
    unfold mapKeys at ih ⊢
    rw [List.map_cons, List.mem_cons]
    by_cases hp : (p.1 == k) = true
    · rw [if_pos hp]
      rw [beq_iff_eq] at hp
      simp [hp]
    · rw [if_neg hp]
      rw [Bool.not_eq_true, beq_eq_false_iff_ne] at hp
      constructor
      · intro h
        exact Or.inr (ih.mp h)
      · rintro (h | h)
        · exact absurd h.symm hp
        · exact ih.mpr h

theorem mapGet_eq_none_iff {m : NodeMap} {k : String} :
    mapGet m k = none ↔ mapHas m k = false := by
  unfold mapHas
  cases mapGet m k <;> simp

theorem mapHas_true_iff_some {m : NodeMap} {k : String} :
    mapHas m k = true ↔ ∃ v, mapGet m k = some v := by
  unfold mapHas
  cases mapGet m k <;> simp

theorem mapGet_eq_some_mem {m : NodeMap} {k : String} {v : ConversationNode}
    (h : mapGet m k = some v) : (k, v) ∈ m := by
  induction m with
  | nil => cases h
  | cons p m ih =>
    rw [mapGet_cons] at h
    by_cases hp : (p.1 == k) = true
    · rw [if_pos hp] at h
      rw [beq_iff_eq] at hp
      have hv : p.2 = v := Option.some.inj h
      have : p = (k, v) := by
        cases p
        simp only at hp hv
        rw [hp, hv]
      exact this ▸ List.mem_cons_self p m
    · rw [if_neg hp] at h
      exact List.mem_cons_of_mem p (ih h)

theorem mem_mapGet_of_nodup {m : NodeMap} (hnd : MapKeysNodup m) {k : String}
    {v : ConversationNode} (hp : (k, v) ∈ m) : mapGet m k = some v := by
  induction m with
  | nil => cases hp
  | cons q m ih =>
    unfold MapKeysNodup mapKeys at hnd
    rw [List.map_cons, List.nodup_cons] at hnd
    obtain ⟨hq, hm⟩ := hnd
    rw [mapGet_cons]
    rcases List.mem_cons.mp hp with hqk | hmem
    · rw [← hqk]
      simp
    · have hne : (q.1 == k) = false := by
        rw [beq_eq_false_iff_ne]
        intro heq
        apply hq
        rw [heq]
        exact List.mem_map_of_mem _ hmem
      rw [hne]
      exact ih hm hmem

theorem mapGet_append_none {m m2 : NodeMap} {k : String} (h : mapGet m k = none) :
    mapGet (m ++ m2) k = mapGet m2 k := by
  induction m with
  | nil => rfl
  | cons p m ih =>
    rw [mapGet_cons] at h
    by_cases hp : (p.1 == k) = true
    · rw [if_pos hp] at h
      cases h
    · rw [if_neg hp] at h
      rw [List.cons_append, mapGet_cons, if_neg hp]
      exact ih h

theorem mapGet_append_some {m m2 : NodeMap} {k : String} {v : ConversationNode}
    (h : mapGet m k = some v) : mapGet (m ++ m2) k = some v := by
  induction m with
  | nil => cases h
  | cons p m ih =>
    rw [mapGet_cons] at h
    rw [List.cons_append, mapGet_cons]
    by_cases hp : (p.1 == k) = true
    · rw [if_pos hp] at h ⊢
      exact h
    · rw [if_neg hp] at h ⊢
      exact ih h

theorem mapGet_replace {m : NodeMap} {k : String} {v : ConversationNode} :
    mapGet (List.map (fun p => if p.1 == k then (k, v) else p) m) k =
      (if mapHas m k = true then some v else none) := by
  induction m with
  | nil => rfl
  | cons q m ih =>
    rw [List.map_cons, mapGet_cons]
    by_cases hq : (q.1 == k) = true
    · rw [if_pos hq]
      have h1 : ((k, v).1 == k) = true := by simp
      rw [h1]
      have h2 : mapHas (q :: m) k = true := by
        unfold mapHas
        rw [mapGet_cons, if_pos hq]
        rfl
      rw [if_pos h2]
      rfl
    · rw [if_neg hq]
      have h2 : mapHas (q :: m) k = mapHas m k := by
        unfold mapHas
        rw [mapGet_cons, if_neg hq]
      rw [ih, h2, if_neg hq]

theorem mapGet_replace_ne {m : NodeMap} {k k' : String} {v : ConversationNode}
    (h : k' ≠ k) :
    mapGet (List.map (fun p => if p.1 == k then (k, v) else p) m) k' = mapGet m k' := by
  induction m with
  | nil => rfl
  | cons q m ih =>
    rw [List.map_cons, mapGet_cons, mapGet_cons]
    by_cases hq : (q.1 == k) = true
    · rw [if_pos hq]
      rw [beq_iff_eq] at hq
      have h1 : ((k, v).1 == k') = false := by
        rw [beq_eq_false_iff_ne]
        exact fun he => h he.symm
      have h2 : (q.1 == k') = false := by
        rw [beq_eq_false_iff_ne, hq]
        exact fun he => h he.symm
      rw [h1, h2]
      exact ih
    · rw [if_neg hq]
      by_cases hq' : (q.1 == k') = true
      · rw [if_pos hq', if_pos hq']
      · rw [if_neg hq', if_neg hq']
        exact ih

theorem mapGet_mapSet_self {m : NodeMap} {k : String} {v : ConversationNode} :
    mapGet (mapSet m k v) k = some v := by
  unfold mapSet
  by_cases hh : mapHas m k = true
  · rw [if_pos hh, mapGet_replace, if_pos hh]
  · rw [if_neg hh]
    have hnone : mapGet m k = none := by
      rw [mapGet_eq_none_iff, Bool.eq_false_iff]
      exact hh
    rw [mapGet_append_none hnone, mapGet_cons]
    simp

theorem mapGet_mapSet_ne {m : NodeMap} {k k' : String} {v : ConversationNode}
    (h : k' ≠ k) : mapGet (mapSet m k v) k' = mapGet m k' := by
  unfold mapSet
  by_cases hh : mapHas m k = true
  · rw [if_pos hh]
    exact mapGet_replace_ne h
  · rw [if_neg hh]
    cases hg : mapGet m k' with
    | some v' => exact mapGet_append_some hg
    | none =>
      rw [mapGet_append_none hg, mapGet_cons]
      have : ((k, v).1 == k') = false := by
        rw [beq_eq_false_iff_ne]
        exact fun he => h he.symm
      rw [this]
      rfl

theorem mapKeys_mapSet_replace {m : NodeMap} {k : String} {v : ConversationNode}
    (h : mapHas m k = true) : mapKeys (mapSet m k v) = mapKeys m := by
  unfold mapSet
  rw [if_pos h]
  unfold mapKeys
  rw [List.map_map]
  apply List.map_congr_left
  intro p _
  simp only [Function.comp]
  by_cases hp : (p.1 == k) = true
  · rw [if_pos hp]
    rw [beq_iff_eq] at hp
    exact hp.symm
  · rw [if_neg hp]

theorem mapKeys_mapSet_new {m : NodeMap} {k : String} {v : ConversationNode}
    (h : mapHas m k = false) : mapKeys (mapSet m k v) = mapKeys m ++ [k] := by
  unfold mapSet
  rw [h]
  show mapKeys (m ++ [(k, v)]) = mapKeys m ++ [k]
  unfold mapKeys
  rw [List.map_append]
  rfl

theorem mem_mapSet_iff {m : NodeMap} {k : String} {v : ConversationNode}
    {p : String × ConversationNode} :
    p ∈ mapSet m k v ↔ ((p ∈ m ∧ p.1 ≠ k) ∨ p = (k, v)) := by
  unfold mapSet
  by_cases hh : mapHas m k = true
  · rw [if_pos hh]
    rw [List.mem_map]
    constructor
    · rintro ⟨q, hq, hqp⟩
      by_cases hqk : (q.1 == k) = true
      · rw [if_pos hqk] at hqp
        exact Or.inr hqp.symm
      · rw [if_neg hqk] at hqp
        rw [Bool.not_eq_true, beq_eq_false_iff_ne] at hqk
        exact Or.inl ⟨hqp ▸ hq, hqp ▸ hqk⟩
    · rintro (⟨hp, hpk⟩ | hp)
      · refine ⟨p, hp, ?_⟩
        have : (p.1 == k) = false := by rw [beq_eq_false_iff_ne]; exact hpk
        rw [this]
        rfl
      · rw [mapHas_iff_mem_keys] at hh
        unfold mapKeys at hh
        rw [List.mem_map] at hh
        obtain ⟨q, hq, hqk⟩ := hh
        refine ⟨q, hq, ?_⟩
        have : (q.1 == k) = true := by rw [beq_iff_eq]; exact hqk
        rw [this, hp]
        rfl
  · rw [if_neg hh]
    rw [List.mem_append, List.mem_singleton]
    constructor
    · rintro (hp | hp)
      · refine Or.inl ⟨hp, ?_⟩
        intro hpk
        apply hh
        rw [mapHas_iff_mem_keys]
        exact hpk ▸ List.mem_map_of_mem _ hp
      · exact Or.inr hp
    · rintro (⟨hp, _⟩ | hp)
      · exact Or.inl hp
      · exact Or.inr hp

theorem mapKeysNodup_mapSet {m : NodeMap} {k : String} {v : ConversationNode}
    (h : MapKeysNodup m) : MapKeysNodup (mapSet m k v) := by
  unfold MapKeysNodup
  by_cases hh : mapHas m k = true
  · rw [mapKeys_mapSet_replace hh]
    exact h
  · rw [mapKeys_mapSet_new (by rw [Bool.eq_false_iff]; exact hh)]
    rw [List.nodup_append]
    refine ⟨h, List.nodup_singleton k, ?_⟩
    intro a ha
    rw [List.mem_singleton]
    intro hak
    subst hak
    apply hh
    rw [mapHas_iff_mem_keys]
    exact ha

theorem mapGet_filter_keys {m : NodeMap} {L : List String} {x : String} :
    mapGet (List.filter (fun p => !(L.contains p.1)) m) x =
      (if L.contains x = true then none else mapGet m x) := by
  induction m with
  | nil =>
    cases hx : L.contains x
    · rfl
    · rfl
  | cons q m ih =>
    rw [List.filter_cons]
    by_cases hq : (L.contains q.1) = true
    · have hneg : (!(L.contains q.1)) = false := by rw [hq]; rfl
      rw [hneg]
      simp only [Bool.false_eq_true, if_false]
      rw [ih]
      by_cases hx : L.contains x = true
      · rw [if_pos hx, if_pos hx]
      · rw [if_neg hx, if_neg hx, mapGet_cons]
        have : (q.1 == x) = false := by
          rw [beq_eq_false_iff_ne]
          intro he
          exact hx (he ▸ hq)
        rw [this]
        rfl
    · have hpos : (!(L.contains q.1)) = true := by
        cases hc : L.contains q.1
        · rfl
        · exact absurd hc hq
      rw [hpos]
      simp only [if_true]
      rw [mapGet_cons, mapGet_cons]
      by_cases hqx : (q.1 == x) = true
      · rw [if_pos hqx, if_pos hqx]
        rw [beq_iff_eq] at hqx
        have hx : ¬ (L.contains x = true) := by
          intro hx
          exact hq (hqx ▸ hx)
        rw [if_neg hx]
      · rw [if_neg hqx, if_neg hqx, ih]

theorem mapKeysNodup_filter {m : NodeMap} (h : MapKeysNodup m)
    (p : String × ConversationNode → Bool) : MapKeysNodup (List.filter p m) := by
  unfold MapKeysNodup mapKeys at h ⊢
  exact List.Nodup.sublist ((List.filter_sublist m).map _) h

/-! ### Preservation of map-store well-formedness -/

theorem mapParentValid_of_imp {m : NodeMap}
    (h : ∀ p ∈ m, ∀ q, p.2.parentId = some q → mapHas m q = true) : MapParentValid m := by
  intro p hp
  cases hpp : p.2.parentId with
  | none => trivial
  | some q => exact h p hp q hpp

theorem mapParentValid_imp {m : NodeMap} (h : MapParentValid m) :
    ∀ p ∈ m, ∀ q, p.2.parentId = some q → mapHas m q = true := by
  intro p hp q hq
  have := h p hp
  rw [hq] at this
  exact this

theorem mapWF_createNode {nodes : NodeMap} {projectId : String} {userMessage : Message}
    {parentId : Option String} {newId : String} {now : Nat}
    (h : MapWF nodes) (hfresh : mapHas nodes newId = false)
    (hparok : match parentId with
      | none => True
      | some pid => mapHas nodes pid = true) :
    MapWF (Store.createNode nodes projectId userMessage parentId newId now) := by
  obtain ⟨hnd, hidm, hval, hcons⟩ := h
  unfold Store.createNode
  simp only
  set node : ConversationNode :=
    { id := newId, projectId := projectId, userMessage := userMessage,
      assistantMessage := none, parentId := parentId, childIds := [],
      summary := Store.summarize userMessage.content, isArchived := false,
      isCollapsed := false, createdAt := now }
    with hnodedef
  have hnodesset : mapSet nodes newId node = nodes ++ [(newId, node)] := by
    unfold mapSet
    rw [hfresh]
    rfl
  have hmem_m1 : ∀ p : String × ConversationNode,
      p ∈ mapSet nodes newId node ↔ (p ∈ nodes ∨ p = (newId, node)) := by
    intro p
    rw [mem_mapSet_iff]
    constructor
    · rintro (⟨hp, _⟩ | hp)
      · exact Or.inl hp
      · exact Or.inr hp
    · rintro (hp | hp)
      · refine Or.inl ⟨hp, ?_⟩
        intro hk
        rw [← mapGet_eq_none_iff] at hfresh
        have := mem_mapGet_of_nodup hnd (k := p.1) (v := p.2) (by cases p; exact hp)
        rw [hk] at this
        rw [hfresh] at this
        cases this
      · exact Or.inr hp
  have hfresh_ne : ∀ p, p ∈ nodes → p.1 ≠ newId := by
    intro p hp hk
    rw [← mapGet_eq_none_iff] at hfresh
    have := mem_mapGet_of_nodup hnd (k := p.1) (v := p.2) (by cases p; exact hp)
    rw [hk, hfresh] at this
    cases this
  have hnoparent_new : ∀ p, p ∈ nodes → p.2.parentId ≠ some newId := by
    intro p hp hq
    have := hval p hp
    rw [hq] at this
    simp only at this
    rw [this] at hfresh
    cases hfresh
  cases hpar : parentId with
  | none =>
    simp only
    refine ⟨mapKeysNodup_mapSet hnd, ?_, ?_, ?_⟩
    · intro p hp
      rcases (hmem_m1 p).mp hp with hold | hnew
      · exact hidm p hold
      · rw [hnew]
    · intro p hp
      have hhasF : ∀ q, mapHas nodes q = true → mapHas (mapSet nodes newId node) q = true := by
        intro q hq
        rw [mapHas_true_iff_some] at hq ⊢
        obtain ⟨v, hv⟩ := hq
        by_cases hqn : q = newId
        · exact ⟨node, hqn ▸ mapGet_mapSet_self⟩
        · exact ⟨v, by rw [mapGet_mapSet_ne hqn]; exact hv⟩
      rcases (hmem_m1 p).mp hp with hold | hnew
      · have := hval p hold
        cases hpp : p.2.parentId with
        | none => trivial
        | some q =>
          rw [hpp] at this
          simp only at this
          simp only [hpp]
          exact hhasF q this
      · rw [hnew]
        simp only [hnodedef, hpar]
    · intro p hp
      rcases (hmem_m1 p).mp hp with hold | hnew
      · constructor
        · intro c hc
          obtain ⟨n, hn, hnp⟩ := (hcons p hold).1 c hc
          have hcne : c ≠ newId := by
            intro hce
            rw [hce] at hn
            rw [← mapGet_eq_none_iff] at hfresh
            rw [hfresh] at hn
            cases hn
          exact ⟨n, by rw [mapGet_mapSet_ne hcne]; exact hn, hnp⟩
        · intro q hq hqp
          rcases (hmem_m1 q).mp hq with hqold | hqnew
          · exact (hcons p hold).2 q hqold hqp
          · rw [hqnew] at hqp
            simp only [hnodedef, hpar] at hqp
            exact Option.noConfusion hqp
      · rw [hnew]
        constructor
        · intro c hc
          simp only [hnodedef] at hc
          cases hc
        · intro q hq hqp
          simp only at hqp
          rcases (hmem_m1 q).mp hq with hqold | hqnew
          · exact absurd hqp (hnoparent_new q hqold)
          · rw [hqnew] at hqp
            simp only [hnodedef, hpar] at hqp
            exact Option.noConfusion hqp
  | some pid =>
    rw [hpar] at hparok
    simp only at hparok
    have hpidne : pid ≠ newId := by
      intro he
      rw [he, hfresh] at hparok
      cases hparok
    obtain ⟨parent, hparent⟩ := mapHas_true_iff_some.mp hparok
    have hget_m1_pid : mapGet (mapSet nodes newId node) pid = some parent := by
      rw [mapGet_mapSet_ne hpidne]
      exact hparent
    simp only [hget_m1_pid]
    set parentUpd : ConversationNode := { parent with childIds := parent.childIds ++ [newId] }
      with hpupd
    have hparent_mem : (pid, parent) ∈ nodes := mapGet_eq_some_mem hparent
    have hparent_id : parent.id = pid := hidm (pid, parent) hparent_mem
    have hmemF : ∀ p : String × ConversationNode,
        p ∈ mapSet (mapSet nodes newId node) pid parentUpd ↔
          ((p ∈ nodes ∧ p.1 ≠ pid) ∨ p = (newId, node) ∨ p = (pid, parentUpd)) := by
      intro p
      rw [mem_mapSet_iff]
      constructor
      · rintro (⟨hp, hpne⟩ | hp)
        · rcases (hmem_m1 p).mp hp with hold | hnew
          · exact Or.inl ⟨hold, hpne⟩
          · exact Or.inr (Or.inl hnew)
        · exact Or.inr (Or.inr hp)
      · rintro (⟨hold, hpne⟩ | hnew | hpeq)
        · exact Or.inl ⟨(hmem_m1 p).mpr (Or.inl hold), hpne⟩
        · refine Or.inl ⟨(hmem_m1 p).mpr (Or.inr hnew), ?_⟩
          rw [hnew]
          exact fun he => hpidne he.symm
        · exact Or.inr hpeq
    have hgetF : ∀ x, mapGet (mapSet (mapSet nodes newId node) pid parentUpd) x =
        (if x = pid then some parentUpd
         else if x = newId then some node
         else mapGet nodes x) := by
      intro x
      by_cases hx1 : x = pid
      · rw [if_pos hx1, hx1]
        exact mapGet_mapSet_self
      · rw [if_neg hx1, mapGet_mapSet_ne hx1]
        by_cases hx2 : x = newId
        · rw [if_pos hx2, hx2]
          exact mapGet_mapSet_self
        · rw [if_neg hx2, mapGet_mapSet_ne hx2]
    refine ⟨mapKeysNodup_mapSet (mapKeysNodup_mapSet hnd), ?_, ?_, ?_⟩
    · intro p hp
      rcases (hmemF p).mp hp with ⟨hold, _⟩ | hnew | hpeq
      · exact hidm p hold
      · rw [hnew]
      · rw [hpeq]
        simp only [hpupd]
        exact hparent_id
    · have hhasF : ∀ q, mapHas nodes q = true →
          mapHas (mapSet (mapSet nodes newId node) pid parentUpd) q = true := by
        intro q hq
        rw [mapHas_true_iff_some]
        rw [hgetF q]
        by_cases h1 : q = pid
        · rw [if_pos h1]; exact ⟨parentUpd, rfl⟩
        · rw [if_neg h1]
          by_cases h2 : q = newId
          · rw [if_pos h2]; exact ⟨node, rfl⟩
          · rw [if_neg h2]
            exact mapHas_true_iff_some.mp hq
      apply mapParentValid_of_imp
      intro p hp q hpq
      rcases (hmemF p).mp hp with ⟨hold, _⟩ | hnew | hpeq
      · exact hhasF q (mapParentValid_imp hval p hold q hpq)
      · rw [hnew] at hpq
        simp only [hnodedef] at hpq
        rw [hpar] at hpq
        have h3 : pid = q := Option.some.inj hpq
        exact h3 ▸ hhasF pid hparok
      · rw [hpeq] at hpq
        simp only [hpupd] at hpq
        exact hhasF q (mapParentValid_imp hval (pid, parent) hparent_mem q hpq)
    · intro p hp
      rcases (hmemF p).mp hp with ⟨hold, hpne⟩ | hnew | hpeq
      · -- an untouched old entry
        constructor
        · intro c hc
          obtain ⟨n, hn, hnp⟩ := (hcons p hold).1 c hc
          have hcne : c ≠ newId := by
            intro hce
            rw [hce] at hn
            rw [← mapGet_eq_none_iff] at hfresh
            rw [hfresh] at hn
            cases hn
          rw [hgetF c]
          by_cases hcp : c = pid
          · rw [if_pos hcp]
            refine ⟨parentUpd, rfl, ?_⟩
            simp only [hpupd]
            rw [hcp] at hn
            rw [hparent] at hn
            have : parent = n := Option.some.inj hn
            rw [this]
            exact hnp
          · rw [if_neg hcp, if_neg hcne]
            exact ⟨n, hn, hnp⟩
        · intro q hq hqp
          rcases (hmemF q).mp hq with ⟨hqold, _⟩ | hqnew | hqeq
          · exact (hcons p hold).2 q hqold hqp
          · rw [hqnew] at hqp
            simp only [hnodedef, hpar] at hqp
            have : pid = p.1 := Option.some.inj hqp
            exact absurd this.symm hpne
          · rw [hqeq] at hqp
            rw [hqeq]
            simp only [hpupd] at hqp
            exact (hcons p hold).2 (pid, parent) hparent_mem hqp
      · -- the new node: childIds = []
        rw [hnew]
        constructor
        · intro c hc
          simp only [hnodedef] at hc
          cases hc
        · intro q hq hqp
          simp only [hnodedef] at hqp
          rcases (hmemF q).mp hq with ⟨hqold, _⟩ | hqnew | hqeq
          · exact absurd hqp (hnoparent_new q hqold)
          · rw [hqnew] at hqp
            simp only [hnodedef, hpar] at hqp
            have : pid = newId := Option.some.inj hqp
            exact absurd this hpidne
          · rw [hqeq] at hqp
            simp only [hpupd] at hqp
            exact absurd hqp (hnoparent_new (pid, parent) hparent_mem)
      · -- the updated parent entry
        rw [hpeq]
        constructor
        · intro c hc
          simp only [hpupd] at hc
          rw [List.mem_append, List.mem_singleton] at hc
          rw [hgetF c]
          rcases hc with hcold | hcnew
          · obtain ⟨n, hn, hnp⟩ := (hcons (pid, parent) hparent_mem).1 c hcold
            have hcne : c ≠ newId := by
              intro hce
              rw [hce] at hn
              rw [← mapGet_eq_none_iff] at hfresh
              rw [hfresh] at hn
              cases hn
            by_cases hcp : c = pid
            · rw [if_pos hcp]
              refine ⟨parentUpd, rfl, ?_⟩
              simp only [hpupd]
              rw [hcp] at hn
              rw [hparent] at hn
              have : parent = n := Option.some.inj hn
              rw [this]
              exact hnp
            · rw [if_neg hcp, if_neg hcne]
              exact ⟨n, hn, hnp⟩
          · have h1 : ¬ (c = pid) := by
              rw [hcnew]
              exact fun he => hpidne he.symm
            rw [if_neg h1, if_pos hcnew]
            refine ⟨node, rfl, ?_⟩
            rw [hnodedef]
            simp only
            rw [hpar]
        · intro q hq hqp
          simp only [hpupd]
          rw [List.mem_append, List.mem_singleton]
          rcases (hmemF q).mp hq with ⟨hqold, _⟩ | hqnew | hqeq
          · exact Or.inl ((hcons (pid, parent) hparent_mem).2 q hqold hqp)
          · rw [hqnew]
            exact Or.inr rfl
          · rw [hqeq] at hqp
            rw [hqeq]
            simp only [hpupd] at hqp
            exact Or.inl ((hcons (pid, parent) hparent_mem).2 (pid, parent) hparent_mem hqp)

theorem mapWF_deleteNode {nodes : NodeMap} {id : String} (h : MapWF nodes) :
    MapWF (Store.deleteNode nodes id) := by
  obtain ⟨hnd, hidm, hval, hcons⟩ := h
  unfold Store.deleteNode
  cases hget : mapGet nodes id with
  | none => exact ⟨hnd, hidm, hval, hcons⟩
  | some node =>
    simp only
    have hnodemem : (id, node) ∈ nodes := mapGet_eq_some_mem hget
    -- the reachability set over childIds
    set R : String → String → Bool := fun a b =>
      match mapGet nodes a with
      | some n => n.childIds.contains b
      | none => false
      with hRdef
    have hR : ∀ a b, R a b = true ↔ ∃ na, mapGet nodes a = some na ∧ b ∈ na.childIds := by
      intro a b
      rw [hRdef]
      beta_reduce
      cases hga : mapGet nodes a with
      | none =>
        simp only
        constructor
        · intro hfalse
          cases hfalse
        · rintro ⟨na, hna, _⟩
          cases hna
      | some n =>
        simp only
        rw [contains_iff]
        constructor
        · intro hb
          exact ⟨n, rfl, hb⟩
        · rintro ⟨na, hna, hb⟩
          have : n = na := Option.some.inj hna
          exact this ▸ hb
    have hTdef : Store.deleteSet nodes id node =
        id :: closSet R (mapKeys nodes) node.childIds := by
      unfold Store.deleteSet
      rw [hRdef]
    set TC : List String := closSet R (mapKeys nodes) node.childIds with hTCdef
    have hmemT : ∀ x, x ∈ Store.deleteSet nodes id node ↔ (x = id ∨ x ∈ TC) := by
      intro x
      rw [hTdef, List.mem_cons, hTCdef]
    -- every member of TC is a key
    have hTC_keys : ∀ c ∈ TC, c ∈ mapKeys nodes := by
      intro c hc
      rw [hTCdef] at hc
      rcases mem_closSet_iff.mp hc with hseed | ⟨a, _, htg⟩
      · obtain ⟨n, hn, _⟩ := (hcons (id, node) hnodemem).1 c hseed
        rw [← mapHas_iff_mem_keys, mapHas_true_iff_some]
        exact ⟨n, hn⟩
      · rcases (Relation.TransGen.tail'_iff).mp htg with ⟨b, _, hstep⟩
        exact hstep.2
    -- every member of TC has a parent (in the sense of the child walk) in the deleted set
    have hF4 : ∀ c ∈ TC, ∃ a, (a = id ∨ a ∈ TC) ∧
        ∃ na, mapGet nodes a = some na ∧ c ∈ na.childIds := by
      intro c hc
      rw [hTCdef] at hc
      rcases mem_closSet_iff.mp hc with hseed | ⟨a0, ha0, htg⟩
      · exact ⟨id, Or.inl rfl, node, hget, hseed⟩
      · rcases (Relation.TransGen.tail'_iff).mp htg with ⟨b, hrt, hstep⟩
        have hb : b ∈ TC := by
          rw [hTCdef]
          rcases Relation.reflTransGen_iff_eq_or_transGen.mp hrt with heq | htg'
          · exact subset_closSet _ _ _ (heq ▸ ha0)
          · exact mem_closSet_iff.mpr (Or.inr ⟨a0, ha0, htg'⟩)
        obtain ⟨na, hna, hcna⟩ := (hR b c).mp hstep.1
        exact ⟨b, Or.inr hb, na, hna, hcna⟩
    -- the deleted set is closed downwards under the parent relation
    have hF3 : ∀ q ∈ nodes, ∀ p, q.2.parentId = some p → (p = id ∨ p ∈ TC) → q.1 ∈ TC := by
      rintro q hq p hqp (hpid | hpTC)
      · have hq2 : q.2.parentId = some id := by rw [hqp, hpid]
        have := (hcons (id, node) hnodemem).2 q hq hq2
        rw [hTCdef]
        exact subset_closSet _ _ _ this
      · have hpkey : p ∈ mapKeys nodes := hTC_keys p hpTC
        rw [← mapHas_iff_mem_keys, mapHas_true_iff_some] at hpkey
        obtain ⟨np, hnp⟩ := hpkey
        have hqmem := (hcons (p, np) (mapGet_eq_some_mem hnp)).2 q hq hqp
        have hqkey : q.1 ∈ mapKeys nodes := List.mem_map_of_mem _ hq
        rw [hTCdef]
        refine closSet_stable R (mapKeys nodes) node.childIds q.1 hqkey ⟨p, hpTC, ?_⟩
        exact (hR p q.1).mpr ⟨np, hnp, hqmem⟩
    -- a child of a surviving node is never in TC
    have hchild_notTC : ∀ k w, (k, w) ∈ nodes → ¬(k = id ∨ k ∈ TC) →
        ∀ c ∈ w.childIds, c ∉ TC := by
      intro k w hkw hk c hc hcTC
      obtain ⟨a, haT, na, hna, hcna⟩ := hF4 c hcTC
      obtain ⟨n1, hn1, hp1⟩ := (hcons (k, w) hkw).1 c hc
      obtain ⟨n2, hn2, hp2⟩ := (hcons (a, na) (mapGet_eq_some_mem hna)).1 c hcna
      have : n1 = n2 := by
        rw [hn1] at hn2
        exact Option.some.inj hn2
      rw [this, hp2] at hp1
      have hka : k = a := (Option.some.inj hp1).symm
      exact hk (hka ▸ haT)
    -- now split on the parent update
    cases hpar : node.parentId with
    | none =>
      simp only
      refine ⟨mapKeysNodup_filter hnd _, ?_, ?_, ?_⟩
      · intro p hp
        exact hidm p (List.mem_of_mem_filter hp)
      · apply mapParentValid_of_imp
        intro p hp q hpq
        have hpm : p ∈ nodes := List.mem_of_mem_filter hp
        have hkeep := List.of_mem_filter hp
        rw [Bool.not_eq_true'] at hkeep
        have hpT : p.1 ∉ Store.deleteSet nodes id node := by
          intro hin
          rw [← contains_iff] at hin
          rw [hin] at hkeep
          cases hkeep
        have hqT : q ∉ Store.deleteSet nodes id node := by
          intro hin
          apply hpT
          rw [hmemT]
          exact Or.inr (hF3 p hpm q hpq ((hmemT q).mp hin))
        have hqhas := mapParentValid_imp hval p hpm q hpq
        rw [mapHas_true_iff_some] at hqhas ⊢
        obtain ⟨v, hv⟩ := hqhas
        refine ⟨v, ?_⟩
        rw [mapGet_filter_keys]
        have : ¬ ((Store.deleteSet nodes id node).contains q = true) := by
          intro hc
          exact hqT (contains_iff.mp hc)
        rw [if_neg this]
        exact hv
      · intro p hp
        have hpm : p ∈ nodes := List.mem_of_mem_filter hp
        have hkeep := List.of_mem_filter hp
        rw [Bool.not_eq_true'] at hkeep
        have hpT : ¬ (p.1 = id ∨ p.1 ∈ TC) := by
          intro hin
          rw [← hmemT, ← contains_iff] at hin
          rw [hin] at hkeep
          cases hkeep
        constructor
        · intro c hc
          have hcnotTC : c ∉ TC := by
            cases p with
            | mk k w => exact hchild_notTC k w hpm hpT c hc
          have hcnotid : c ≠ id := by
            intro hcid
            obtain ⟨n, hn, hnp⟩ := (hcons p hpm).1 c hc
            rw [hcid, hget] at hn
            have : node = n := Option.some.inj hn
            rw [← this, hpar] at hnp
            cases hnp
          obtain ⟨n, hn, hnp⟩ := (hcons p hpm).1 c hc
          refine ⟨n, ?_, hnp⟩
          rw [mapGet_filter_keys]
          have : ¬ ((Store.deleteSet nodes id node).contains c = true) := by
            intro hcc
            rcases (hmemT c).mp (contains_iff.mp hcc) with h1 | h2
            · exact hcnotid h1
            · exact hcnotTC h2
          rw [if_neg this]
          exact hn
        · intro q hq hqp
          exact (hcons p hpm).2 q (List.mem_of_mem_filter hq) hqp
    | some pid =>
      have hpidhas := mapParentValid_imp hval (id, node) hnodemem pid hpar
      rw [mapHas_true_iff_some] at hpidhas
      obtain ⟨parent, hparent⟩ := hpidhas
      simp only [hparent]
      set parentFil : ConversationNode :=
        { parent with childIds := parent.childIds.filter (fun c => !(c == id)) }
        with hpfil
      have hparent_mem : (pid, parent) ∈ nodes := mapGet_eq_some_mem hparent
      have hparent_id : parent.id = pid := hidm (pid, parent) hparent_mem
      have hget_m1 : ∀ x, mapGet (mapSet nodes pid parentFil) x =
          (if x = pid then some parentFil else mapGet nodes x) := by
        intro x
        by_cases hx : x = pid
        · rw [if_pos hx, hx]
          exact mapGet_mapSet_self
        · rw [if_neg hx, mapGet_mapSet_ne hx]
      have hmem_m1 : ∀ p : String × ConversationNode,
          p ∈ mapSet nodes pid parentFil ↔ ((p ∈ nodes ∧ p.1 ≠ pid) ∨ p = (pid, parentFil)) :=
        fun p => mem_mapSet_iff
      refine ⟨mapKeysNodup_filter (mapKeysNodup_mapSet hnd) _, ?_, ?_, ?_⟩
      · intro p hp
        rcases (hmem_m1 p).mp (List.mem_of_mem_filter hp) with ⟨hold, _⟩ | hpeq
        · exact hidm p hold
        · rw [hpeq]
          exact hparent_id
      · apply mapParentValid_of_imp
        intro p hp q hpq
        have hkeep := List.of_mem_filter hp
        rw [Bool.not_eq_true'] at hkeep
        have hpT : ¬ (p.1 = id ∨ p.1 ∈ TC) := by
          intro hin
          rw [← hmemT, ← contains_iff] at hin
          rw [hin] at hkeep
          cases hkeep
        -- reduce p's parent pointer to a statement about an entry of `nodes`
        have hqold : ∃ w, (p.1, w) ∈ nodes ∧ w.parentId = some q := by
          rcases (hmem_m1 p).mp (List.mem_of_mem_filter hp) with ⟨hold, _⟩ | hpeq
          · exact ⟨p.2, by cases p; exact ⟨hold, hpq⟩⟩
          · refine ⟨parent, by rw [hpeq]; exact hparent_mem, ?_⟩
            rw [hpeq] at hpq
            simp only [hpfil] at hpq
            exact hpq
        obtain ⟨w, hw, hwq⟩ := hqold
        have hqT : ¬ (q = id ∨ q ∈ TC) := by
          intro hin
          apply hpT
          exact Or.inr (hF3 (p.1, w) hw q hwq hin)
        have hqhas := mapParentValid_imp hval (p.1, w) hw q hwq
        rw [mapHas_true_iff_some] at hqhas ⊢
        obtain ⟨v, hv⟩ := hqhas
        rw [mapGet_filter_keys]
        have hnc : ¬ ((Store.deleteSet nodes id node).contains q = true) := by
          intro hcc
          exact hqT ((hmemT q).mp (contains_iff.mp hcc))
        rw [if_neg hnc, hget_m1 q]
        by_cases hqpid : q = pid
        · rw [if_pos hqpid]
          exact ⟨parentFil, rfl⟩
        · rw [if_neg hqpid]
          exact ⟨v, hv⟩
      · intro p hp
        have hkeep := List.of_mem_filter hp
        rw [Bool.not_eq_true'] at hkeep
        have hpT : ¬ (p.1 = id ∨ p.1 ∈ TC) := by
          intro hin
          rw [← hmemT, ← contains_iff] at hin
          rw [hin] at hkeep
          cases hkeep
        have hsurvget : ∀ c, ¬ (c = id ∨ c ∈ TC) → ∀ n, mapGet nodes c = some n →
            ∃ n2, mapGet (List.filter
                (fun p => !((Store.deleteSet nodes id node).contains p.1))
                (mapSet nodes pid parentFil)) c = some n2 ∧
              n2.parentId = n.parentId := by
          intro c hcT n hn
          rw [mapGet_filter_keys]
          have hnc : ¬ ((Store.deleteSet nodes id node).contains c = true) := by
            intro hcc
            exact hcT ((hmemT c).mp (contains_iff.mp hcc))
          rw [if_neg hnc, hget_m1 c]
          by_cases hcpid : c = pid
          · rw [if_pos hcpid]
            refine ⟨parentFil, rfl, ?_⟩
            simp only [hpfil]
            rw [hcpid, hparent] at hn
            have : parent = n := Option.some.inj hn
            rw [this]
          · rw [if_neg hcpid]
            exact ⟨n, hn, rfl⟩
        rcases (hmem_m1 p).mp (List.mem_of_mem_filter hp) with ⟨hold, hpnepid⟩ | hpeq
        · constructor
          · intro c hc
            have hcnotTC : c ∉ TC := by
              cases p with
              | mk k w => exact hchild_notTC k w hold hpT c hc
            obtain ⟨n, hn, hnp⟩ := (hcons p hold).1 c hc
            have hcnotid : c ≠ id := by
              intro hcid
              rw [hcid, hget] at hn
              have : node = n := Option.some.inj hn
              rw [← this, hpar] at hnp
              have : pid = p.1 := Option.some.inj hnp
              exact hpnepid this.symm
            obtain ⟨n2, hn2, hn2p⟩ := hsurvget c (by
              rintro (h1 | h2)
              · exact hcnotid h1
              · exact hcnotTC h2) n hn
            refine ⟨n2, hn2, ?_⟩
            rw [hn2p]
            exact hnp
          · intro q hq hqp
            have hqm1 := List.mem_of_mem_filter hq
            rcases (hmem_m1 q).mp hqm1 with ⟨hqold, _⟩ | hqeq
            · exact (hcons p hold).2 q hqold hqp
            · rw [hqeq] at hqp
              rw [hqeq]
              simp only [hpfil] at hqp
              exact (hcons p hold).2 (pid, parent) hparent_mem hqp
        · rw [hpeq]
          constructor
          · intro c hc
            simp only [hpfil] at hc
            have hcmem := List.mem_of_mem_filter hc
            have hcne := List.of_mem_filter hc
            rw [Bool.not_eq_true', beq_eq_false_iff_ne] at hcne
            obtain ⟨n, hn, hnp⟩ := (hcons (pid, parent) hparent_mem).1 c hcmem
            have hcnotTC : c ∉ TC := by
              apply hchild_notTC pid parent hparent_mem _ c hcmem
              rw [hpeq] at hpT
              exact hpT
            obtain ⟨n2, hn2, hn2p⟩ := hsurvget c (by
              rintro (h1 | h2)
              · exact hcne h1
              · exact hcnotTC h2) n hn
            refine ⟨n2, hn2, ?_⟩
            rw [hn2p]
            exact hnp
          · intro q hq hqp
            have hqm1 := List.mem_of_mem_filter hq
            have hqkeep := List.of_mem_filter hq
            rw [Bool.not_eq_true'] at hqkeep
            have hqT : ¬ (q.1 = id ∨ q.1 ∈ TC) := by
              intro hin
              rw [← hmemT, ← contains_iff] at hin
              rw [hin] at hqkeep
              cases hqkeep
            simp only [hpfil]
            rcases (hmem_m1 q).mp hqm1 with ⟨hqold, _⟩ | hqeq
            · have hqmem := (hcons (pid, parent) hparent_mem).2 q hqold hqp
              apply List.mem_filter.mpr
              refine ⟨hqmem, ?_⟩
              rw [Bool.not_eq_true', beq_eq_false_iff_ne]
              intro hqid
              exact hqT (Or.inl hqid)
            · rw [hqeq] at hqp
              rw [hqeq]
              simp only [hpfil] at hqp
              have hqmem := (hcons (pid, parent) hparent_mem).2 (pid, parent) hparent_mem hqp
              apply List.mem_filter.mpr
              refine ⟨hqmem, ?_⟩
              rw [Bool.not_eq_true', beq_eq_false_iff_ne]
              intro hqid
              apply hqT
              rw [hqeq]
              exact Or.inl hqid

/-! ### Operation sequences over the map store -/

/-- The map-store mutation operations named by the spec's invariant claim.
`create` carries the externally generated fresh id and timestamp. -/
inductive StoreOp where
  | create (projectId : String) (userMessage : Message) (parentId : Option String)
      (newId : String) (now : Nat)
  | del (id : String)
deriving Repr, DecidableEq

def applyStoreOp (m : NodeMap) : StoreOp → NodeMap
  | .create pj msg pid nid now => Store.createNode m pj msg pid nid now
  | .del i => Store.deleteNode m i

/-- `createNode`'s id really is fresh (the source's `generateId`) and its
`parentId` argument refers to an existing node or is null. -/
def validStoreOp (m : NodeMap) : StoreOp → Bool
  | .create _ _ pid nid _ =>
    !(mapHas m nid) && (match pid with
      | none => true
      | some p => mapHas m p)
  | .del _ => true

def validStoreOps (m : NodeMap) : List StoreOp → Bool
  | [] => true
  | op :: ops => validStoreOp m op && validStoreOps (applyStoreOp m op) ops

def applyStoreOps (m : NodeMap) (ops : List StoreOp) : NodeMap :=
  ops.foldl applyStoreOp m

theorem mapWF_applyStoreOp {m : NodeMap} {op : StoreOp} (h : MapWF m)
    (hv : validStoreOp m op = true) : MapWF (applyStoreOp m op) := by
  cases op with
  | create pj msg pid nid now =>
    unfold validStoreOp at hv
    rw [Bool.and_eq_true] at hv
    obtain ⟨h1, h2⟩ := hv
    apply mapWF_createNode h
    · cases hh : mapHas m nid
      · rfl
      · rw [hh] at h1
        cases h1
    · cases pid with
      | none => trivial
      | some p =>
        simp only
        exact h2
  | del i => exact mapWF_deleteNode h

theorem mapWF_applyStoreOps {m : NodeMap} {ops : List StoreOp} (h : MapWF m)
    (hv : validStoreOps m ops = true) : MapWF (applyStoreOps m ops) := by
  induction ops generalizing m with
  | nil => exact h
  | cons op ops ih =>
    unfold validStoreOps at hv
    rw [Bool.and_eq_true] at hv
    exact ih (mapWF_applyStoreOp h hv.1) hv.2

/-! ### Decidability of the map-store well-formedness predicates -/

instance (m : NodeMap) : Decidable (MapKeysNodup m) := by
  unfold MapKeysNodup
  infer_instance

instance (m : NodeMap) : Decidable (MapIdMatch m) := by
  unfold MapIdMatch
  infer_instance

instance (m : NodeMap) : Decidable (MapParentValid m) := by
  unfold MapParentValid
  have : ∀ p : String × ConversationNode, Decidable (match p.2.parentId with
    | some q => mapHas m q = true
    | none => True) := by
    intro p
    cases p.2.parentId
    · exact inferInstanceAs (Decidable True)
    · exact inferInstanceAs (Decidable (_ = _))
  exact List.decidableBAll _ m

instance (m : NodeMap) (c k : String) :
    Decidable (∃ n, mapGet m c = some n ∧ n.parentId = some k) := by
  cases hg : mapGet m c with
  | none =>
    apply isFalse
    rintro ⟨n, hn, _⟩
    exact Option.noConfusion hn
  | some v =>
    apply decidable_of_iff (v.parentId = some k)
    constructor
    · intro h
      exact ⟨v, rfl, h⟩
    · rintro ⟨n, hn, hp⟩
      rw [Option.some.inj hn]
      exact hp

instance (m : NodeMap) : Decidable (MapConsistent m) := by
  unfold MapConsistent
  infer_instance

instance (m : NodeMap) : Decidable (MapWF m) := by
  unfold MapWF
  infer_instance

/-! ## Ancestor traversal (`src/utils/treeUtils.ts` and
`src/src/lib/tree/traversal.ts`) -/

namespace TreeUtils

/-- The body of the `while (currentId)` loop of `getAncestorPath`
(`src/utils/treeUtils.ts`), with a fuel bound.  The source's loop terminates
exactly when the parent chain reaches a root or a missing id without revisiting
a node; `allNodes.length + 1` iterations are then always enough (the theorems
below prove the walk finishes within that bound on well-formed input). -/
def ancPathGo (allNodes : List ChatNode) : Nat → Option String → List ChatNode → List ChatNode
  | 0, _, path => path
  | _ + 1, none, path => path
  | fuel + 1, some currentId, path =>
    match allNodes.find? (fun n => n.id == currentId) with
    | none => path
    | some node => ancPathGo allNodes fuel node.parentId (node :: path)

/-- `getAncestorPath` (`src/utils/treeUtils.ts`): root-first path from the root
to `leafNodeId`, built by walking parent links and prepending. -/
def getAncestorPath (allNodes : List ChatNode) (leafNodeId : String) : List ChatNode :=
  ancPathGo allNodes (allNodes.length + 1) (some leafNodeId) []

end TreeUtils

namespace Traversal

/-- The body of the `while (current)` loop of `getAncestorPath`
(`src/src/lib/tree/traversal.ts`), with a fuel bound as in
`TreeUtils.ancPathGo`. -/
def ancGo (nodes : NodeMap) :
    Nat → Option ConversationNode → List ConversationNode → List ConversationNode
  | 0, _, path => path
  | _ + 1, none, path => path
  | fuel + 1, some current, path =>
    ancGo nodes fuel
      (match current.parentId with
       | some pid => mapGet nodes pid
       | none => none)
      (current :: path)

/-- `getAncestorPath` (`src/src/lib/tree/traversal.ts`). -/
def getAncestorPath (nodes : NodeMap) (nodeId : String) : List ConversationNode :=
  ancGo nodes (nodes.length + 1) (mapGet nodes nodeId) []

end Traversal

/-! ## Context assembly (`buildContext` of `src/src/lib/context`) -/

/-- Roles of the `ContextMessage` shape sent to the model. -/
inductive CRole where
  | user
  | model
  | system
deriving Repr, DecidableEq

structure ContextMessage where
  role : CRole
  content : String
deriving Repr, DecidableEq

namespace Context

/-- JavaScript `String.prototype.trim`: whitespace stripped from both ends,
over the character list. -/
def jsTrim (s : String) : String :=
  String.mk
    (((s.data.dropWhile Char.isWhitespace).reverse.dropWhile Char.isWhitespace).reverse)

/-- `buildContext`: the JavaScript guard `systemPrompt && systemPrompt.trim()`
emits the system message only when the prompt is a non-empty string whose
trimmed form is also non-empty. -/
def buildContext (nodes : NodeMap) (nodeId : String) (systemPrompt : Option String) :
    List ContextMessage :=
  let messages : List ContextMessage :=
    match systemPrompt with
    | some s => if s ≠ "" ∧ jsTrim s ≠ "" then [⟨CRole.system, s⟩] else []
    | none => []
  let path := Traversal.getAncestorPath nodes nodeId
  let path2 :=
    match mapGet nodes nodeId with
    | some currentNode =>
      if path.any (fun n => n.id == nodeId) then path else path ++ [currentNode]
    | none => path
  messages ++ (path2.map (fun node =>
    (⟨CRole.user, node.userMessage.content⟩ : ContextMessage) ::
      (match node.assistantMessage with
       | some am => [(⟨CRole.model, am.content⟩ : ContextMessage)]
       | none => []))).flatten

end Context

/-! ## Hierarchy construction (`buildHierarchy` of `src/unnamed/part_006`) and
the rendered node set -/

/-- `TreeDataNode` (`src/types.ts`); the source stores an empty child list as
`undefined`, represented here as `[]`. -/
structure TreeDataNode where
  id : String
  name : String
  children : List TreeDataNode
  data : ChatNode

namespace TreeUtils

/-- The recursive `build` helper of `buildHierarchy`, with a fuel bound (the
source recursion terminates for acyclic collections; the fuel
`projectNodes.length + 1` is enough there, and all fields above the recursion
are computed before descending, so the top levels are exact for any fuel). -/
def buildHNode (projectNodes : List ChatNode) : Nat → ChatNode → TreeDataNode
  | 0, node => ⟨node.id, node.summary, [], node⟩
  | fuel + 1, node =>
    ⟨node.id, node.summary,
      (projectNodes.filter (fun n => n.parentId == some node.id)).map
        (fun c => buildHNode projectNodes fuel c),
      node⟩

/-- The placeholder `data` record of the virtual root (`src/unnamed/part_006`). -/
def virtualRootData (projectId : String) : ChatNode :=
  { id := "__virtual_root__", parentId := none, projectId := projectId,
    summary := "Conversations", userPrompt := "", assistantResponse := "",
    timestamp := 0, isArchived := false, isCollapsed := false }

/-- `buildHierarchy` (`src/unnamed/part_006`): filters the project's nodes by
archive visibility, then builds the tree from the root; with several roots it
synthesizes a `__virtual_root__` node whose children are the real roots. -/
def buildHierarchy (allNodes : List ChatNode) (projectId : String) (showArchived : Bool) :
    Option TreeDataNode :=
  let projectNodes := allNodes.filter
    (fun n => n.projectId == projectId && (showArchived || !n.isArchived))
  let rootNodes := projectNodes.filter (fun n => n.parentId == none)
  match rootNodes with
  | [] => none
  | [r] => some (buildHNode projectNodes (projectNodes.length + 1) r)
  | _ =>
    some ⟨"__virtual_root__", "Conversions",
      rootNodes.map (fun r => buildHNode projectNodes (projectNodes.length + 1) r),
      virtualRootData projectId⟩

end TreeUtils

mutual

/-- All node ids of a hierarchy tree (the ids of
`d3.hierarchy(treeData).descendants()`). -/
def treeIds : TreeDataNode → List String
  | ⟨i, _, cs, _⟩ => i :: treeIdsList cs

def treeIdsList : List TreeDataNode → List String
  | [] => []
  | t :: ts => treeIds t ++ treeIdsList ts

end

/-- The ids of the nodes the graph view renders: the `GraphView` component
(`src/unnamed/part_002`) data-binds one SVG group, with a click handler, to
every element of `tree.descendants()` of the hierarchy returned by
`buildHierarchy`, without filtering any node out, so the rendered node set is
exactly the hierarchy's node set. -/
def renderedNodeIds (hierarchy : Option TreeDataNode) : List String :=
  match hierarchy with
  | none => []
  | some t => treeIds t

/-! ## Layout tree construction (`buildLayoutState` inside `calculateTreeLayout`
of `src/unnamed/part_024`) -/

/-- The shape of the `LayoutState` tree built by `buildLayoutState`, reduced to
the data the membership claims are about: the node id and the recursively built
children.  The positional fields (`x`, `y`, `prelim`, `mod`, …) and the
`number`/`parent` bookkeeping of the source are used only by the positioning
passes, which place exactly the nodes of this tree into the returned layout
map (`extractLayout` walks this tree). -/
inductive LTree where
  | mk (id : String) (children : List LTree)

def LTree.rootId : LTree → String
  | .mk i _ => i

mutual

def ltreeIds : LTree → List String
  | .mk i cs => i :: ltreeIdsList cs

def ltreeIdsList : List LTree → List String
  | [] => []
  | t :: ts => ltreeIds t ++ ltreeIdsList ts

end

namespace Layout

/-- `buildLayoutState` (`src/unnamed/part_024`): returns `null` for an archived
node when `showArchived` is false; otherwise collects the recursively built
states of the children found in the map, skipping the children of a collapsed
node.  Fuel bounds the recursion (the source recursion terminates on acyclic
maps, where `nodes.length + 1` is enough). -/
def buildLayoutState (nodes : NodeMap) (showArchived : Bool) :
    Nat → ConversationNode → Option LTree
  | 0, _ => none
  | fuel + 1, node =>
    if !showArchived && node.isArchived then none
    else
      some (LTree.mk node.id
        (if node.isCollapsed then []
         else node.childIds.filterMap (fun childId =>
           (mapGet nodes childId).bind
             (fun childNode => buildLayoutState nodes showArchived fuel childNode))))

/-- The key set of the `layout` map returned by `calculateTreeLayout`
(`src/unnamed/part_024`): empty when `rootId` is null or missing or the root
state is pruned; otherwise `extractLayout` inserts exactly the nodes of the
built `LayoutState` tree. -/
def layoutIds (nodes : NodeMap) (rootId : Option String) (showArchived : Bool) :
    List String :=
  match rootId with
  | none => []
  | some rid =>
    match mapGet nodes rid with
    | none => []
    | some root =>
      match buildLayoutState nodes showArchived (nodes.length + 1) root with
      | none => []
      | some t => ltreeIds t

end Layout

/-- The parent-step relation on the map store: `PStep nodes c p` holds when the
node stored at `c` has `parentId = p`. -/
def PStep (nodes : NodeMap) (c p : String) : Prop :=
  ∃ n, mapGet nodes c = some n ∧ n.parentId = some p

/-- One parent step as a boolean test. -/
def pstepB (nodes : NodeMap) : String → String → Bool := fun x y =>
  match mapGet nodes x with
  | some n => n.parentId == some y
  | none => false

/-- The set of (iterated) parent ids of `a`, computed with the generic
reachability machinery. -/
def mapAncSet (nodes : NodeMap) (a : String) : List String :=
  closSet (pstepB nodes) (mapKeys nodes)
    (match mapGet nodes a with
     | some n => match n.parentId with
       | some p => [p]
       | none => []
     | none => [])

/-- No key is among its own iterated parents (decidable acyclicity of the
parent chains). -/
def MapParentAcyclic (nodes : NodeMap) : Prop :=
  ∀ a ∈ mapKeys nodes, a ∉ mapAncSet nodes a

instance (nodes : NodeMap) : Decidable (MapParentAcyclic nodes) := by
  unfold MapParentAcyclic
  infer_instance

/-! ## Claim C1: invariant preservation under operation sequences -/

/-- C1, counterexample to the claim as stated: the empty map store satisfies
the claim's well-formedness (trivially: parent validity and `childIds`
consistency), yet after the one-operation sequence `createNode` with the
non-existent parent id `"ghost"`, the surviving node's `parentId` refers to no
node in the collection. -/
theorem canopy_c1_counterexample :
    MapWF ([] : NodeMap) ∧
    ¬ MapParentValid
        (applyStoreOps []
          [StoreOp.create "p" ⟨Role.user, "hi", 0⟩ (some "ghost") "a" 0]) := by
  constructor
  · decide
  · decide

/-- C1 (amended): for every well-formed collection — unique ids, every
`parentId` null or present, acyclic parent links, and for the map store exact
`childIds` consistency — and every sequence of `deleteNodeOnly`,
`deleteNodeWithChildren`, `deleteChildrenOnly`, `archiveNodeOnly`,
`archiveNodeWithChildren`, `archiveChildrenOnly`, `unarchiveNodeWithChildren`
(array store) and `createNode`, `deleteNode` (map store), where each
`createNode` is invoked with a fresh id and a `parentId` that is null or
present at that point, well-formedness — in particular that every surviving
node's `parentId` is null or refers to a present node, and `childIds`
consistency in the map store — holds after every step (every prefix of a
sequence is itself a sequence, so the conclusion applies to each intermediate
state). -/
theorem canopy_c1 :
    (∀ (s : List ChatNode × Option String) (ops : List ArrayOp),
        ArrayWF s.1 → ArrayWF (applyArrayOps s ops).1) ∧
    (∀ (m : NodeMap) (ops : List StoreOp),
        MapWF m → validStoreOps m ops = true → MapWF (applyStoreOps m ops)) :=
  ⟨fun _ ops h => wf_applyArrayOps ops h, fun _ _ h hv => mapWF_applyStoreOps h hv⟩

/-- Witness for C1 at concrete inputs: a two-node array store surviving a
delete-only of the root followed by an archive-with-children, and a map store
built by two creates and one cascading delete. -/
theorem canopy_c1_witness :
    ArrayWF (applyArrayOps
        ([⟨"a", none, "p", "s", "u", "r", 0, false, false⟩,
          ⟨"b", some "a", "p", "s", "u", "r", 0, false, false⟩], some "b")
        [ArrayOp.deleteOnly "a", ArrayOp.archiveWith "b"]).1 ∧
    MapWF (applyStoreOps []
        [StoreOp.create "p" ⟨Role.user, "hi", 0⟩ none "r" 0,
         StoreOp.create "p" ⟨Role.user, "yo", 1⟩ (some "r") "c" 1,
         StoreOp.del "c"]) :=
  ⟨canopy_c1.1 _ _ (by decide), canopy_c1.2 _ _ (by decide) (by decide)⟩

/-! ## Claim C2: re-parenting correctness of the "only" variants -/

theorem filter_map_id_comm {l : List ChatNode} {g : ChatNode → ChatNode}
    (hg : ∀ n, (g n).id = n.id) (p : String → Bool) :
    (l.map g).filter (fun n => p n.id) = (l.filter (fun n => p n.id)).map g := by
  induction l with
  | nil => rfl
  | cons c l ih =>
    rw [List.map_cons, List.filter_cons, List.filter_cons]
    rw [hg c]
    by_cases hc : p c.id = true
    · rw [if_pos hc, if_pos hc, List.map_cons, ih]
    · rw [if_neg hc, if_neg hc, ih]

/-- On a well-formed collection, a node whose id is among the target's
children's ids is itself one of those children (and is not the target). -/
theorem kid_id_char {nodes : List ChatNode} {nodeId : String} (hwf : ArrayWF nodes) :
    ∀ n ∈ nodes,
      (((nodes.filter (fun m => m.parentId == some nodeId)).map (·.id)).contains n.id) =
        (n.parentId == some nodeId) := by
  obtain ⟨hnd, _, hacyc⟩ := hwf
  intro n hn
  by_cases hc : (n.parentId == some nodeId) = true
  · rw [hc, contains_iff]
    refine List.mem_map_of_mem _ (List.mem_filter.mpr ⟨hn, hc⟩)
  · rw [Bool.not_eq_true] at hc
    rw [hc]
    rw [← Bool.not_eq_true, contains_iff]
    intro hmem
    rw [List.mem_map] at hmem
    obtain ⟨c, hcmem, hcid⟩ := hmem
    have hcn : c ∈ nodes := List.mem_of_mem_filter hcmem
    have hcp := List.of_mem_filter hcmem
    rw [beq_iff_eq] at hcp
    have : c = n := by
      have h1 := find?_some_of_mem hnd hcn
      have h2 := find?_some_of_mem hnd hn
      rw [hcid] at h1
      exact Option.some.inj (h1.symm.trans h2)
    rw [this] at hcp
    rw [hcp] at hc
    simp at hc

/-- Within a well-formed collection, no child of the target node can carry the
target's own id (that would be a parent cycle). -/
theorem kid_ne_target {nodes : List ChatNode} {nodeId : String} (hwf : ArrayWF nodes) :
    ∀ n ∈ nodes, (n.parentId == some nodeId) = true → n.id ≠ nodeId := by
  obtain ⟨_, _, hacyc⟩ := hwf
  intro n hn hp hid
  rw [beq_iff_eq] at hp
  exact acyclic_all hacyc nodeId (Relation.TransGen.single ⟨n, hn, hid, hp⟩)

/-- C2: on a well-formed collection containing the target node,
`deleteNodeOnly` and `archiveNodeOnly` give exactly the target's direct
children — in their original relative order — the target's former `parentId`
as their new `parentId`; every other node keeps its record (the archived
target aside); when the target was a root, each former child ends with
`parentId = null`, so a target with several children leaves several roots. -/
theorem canopy_c2 {nodes : List ChatNode} {nodeId : String} {active : Option String}
    {nd : ChatNode} (hwf : ArrayWF nodes)
    (hfind : nodes.find? (fun n => n.id == nodeId) = some nd) :
    ((Deletion.deleteNodeOnly nodes nodeId active).updatedNodes.filter
        (fun n => ((nodes.filter (fun m => m.parentId == some nodeId)).map (·.id)).contains n.id) =
      (nodes.filter (fun m => m.parentId == some nodeId)).map
        (fun c => { c with parentId := nd.parentId })) ∧
    ((Archive.archiveNodeOnly nodes nodeId active).updatedNodes.filter
        (fun n => ((nodes.filter (fun m => m.parentId == some nodeId)).map (·.id)).contains n.id) =
      (nodes.filter (fun m => m.parentId == some nodeId)).map
        (fun c => { c with parentId := nd.parentId })) ∧
    ((Deletion.deleteNodeOnly nodes nodeId active).updatedNodes.filter
        (fun n => ((nodes.filter (fun m => m.parentId == some nodeId)).map (·.id)).contains n.id)).length =
      (nodes.filter (fun m => m.parentId == some nodeId)).length ∧
    (nd.parentId = none →
      ∀ n' ∈ (Deletion.deleteNodeOnly nodes nodeId active).updatedNodes,
        (((nodes.filter (fun m => m.parentId == some nodeId)).map (·.id)).contains n'.id) = true →
          n'.parentId = none) ∧
    (∀ n' ∈ (Deletion.deleteNodeOnly nodes nodeId active).updatedNodes,
      ¬ ((((nodes.filter (fun m => m.parentId == some nodeId)).map (·.id)).contains n'.id) = true) →
        n' ∈ nodes) ∧
    (∀ n ∈ nodes, n.id ≠ nodeId → ¬ ((n.parentId == some nodeId) = true) →
      n ∈ (Archive.archiveNodeOnly nodes nodeId active).updatedNodes) := by
  obtain ⟨hndid, hval, hacyc⟩ := hwf
  obtain ⟨hndmem, hndeq⟩ := find?_props hfind
  set kids := nodes.filter (fun m => m.parentId == some nodeId) with hkids
  set kidIds := kids.map (·.id) with hkidIds
  have hpred : ∀ n ∈ nodes, (kidIds.contains n.id) = (n.parentId == some nodeId) :=
    kid_id_char ⟨hndid, hval, hacyc⟩
  have hkifid : ∀ n ∈ nodes, (kidIds.contains n.id) = true → n.id ≠ nodeId := by
    intro n hn hc
    exact kid_ne_target ⟨hndid, hval, hacyc⟩ n hn (by rw [← hpred n hn]; exact hc)
  have hdel :
      (Deletion.deleteNodeOnly nodes nodeId active).updatedNodes.filter
          (fun n => kidIds.contains n.id) =
        kids.map (fun c => { c with parentId := nd.parentId }) := by
    unfold Deletion.deleteNodeOnly
    rw [hfind]
    simp only
    have hgid : ∀ n : ChatNode, ((fun node =>
        if node.parentId == some nodeId then { node with parentId := nd.parentId }
        else node) n).id = n.id := by
      intro n
      beta_reduce
      by_cases hc : (n.parentId == some nodeId) = true
      · rw [if_pos hc]
      · rw [if_neg hc]
    rw [filter_map_id_comm hgid (fun i => kidIds.contains i)]
    rw [List.filter_filter]
    have heq : nodes.filter (fun a => kidIds.contains a.id && !(a.id == nodeId)) =
        nodes.filter (fun m => m.parentId == some nodeId) := by
      apply List.filter_congr
      intro n hn
      by_cases hc : (kidIds.contains n.id) = true
      · have h2 : (!(n.id == nodeId)) = true := by
          rw [Bool.not_eq_true', beq_eq_false_iff_ne]
          exact hkifid n hn hc
        rw [hc, h2, ← hpred n hn, hc]
        rfl
      · rw [Bool.not_eq_true] at hc
        rw [hc, ← hpred n hn, hc]
        rfl
    rw [heq, ← hkids]
    apply List.map_congr_left
    intro c hc
    have hcp := List.of_mem_filter (by rw [hkids] at hc; exact hc)
    rw [if_pos hcp]
  have harc :
      (Archive.archiveNodeOnly nodes nodeId active).updatedNodes.filter
          (fun n => kidIds.contains n.id) =
        kids.map (fun c => { c with parentId := nd.parentId }) := by
    unfold Archive.archiveNodeOnly
    rw [hfind]
    simp only
    have hgid : ∀ n : ChatNode, ((fun node =>
        if node.id == nodeId then { node with isArchived := true }
        else if node.parentId == some nodeId then { node with parentId := nd.parentId }
        else node) n).id = n.id := by
      intro n
      beta_reduce
      by_cases hc1 : (n.id == nodeId) = true
      · rw [if_pos hc1]
      · rw [if_neg hc1]
        by_cases hc2 : (n.parentId == some nodeId) = true
        · rw [if_pos hc2]
        · rw [if_neg hc2]
    rw [filter_map_id_comm hgid (fun i => kidIds.contains i)]
    have heq : nodes.filter (fun a => kidIds.contains a.id) =
        nodes.filter (fun m => m.parentId == some nodeId) := by
      apply List.filter_congr
      intro n hn
      exact hpred n hn
    rw [heq, ← hkids]
    apply List.map_congr_left
    intro c hc
    have hcmem : c ∈ nodes := List.mem_of_mem_filter (by rw [hkids] at hc; exact hc)
    have hcp := List.of_mem_filter (by rw [hkids] at hc; exact hc)
    have hcid : (c.id == nodeId) = false := by
      rw [beq_eq_false_iff_ne]
      exact hkifid c hcmem (by rw [hpred c hcmem]; exact hcp)
    rw [hcid]
    simp only [Bool.false_eq_true, if_false]
    rw [if_pos hcp]
  refine ⟨hdel, harc, ?_, ?_, ?_, ?_⟩
  · rw [hdel, List.length_map]
  · intro hroot n' hn' hc
    have hmem : n' ∈ (Deletion.deleteNodeOnly nodes nodeId active).updatedNodes.filter
        (fun n => kidIds.contains n.id) := List.mem_filter.mpr ⟨hn', hc⟩
    rw [hdel] at hmem
    rw [List.mem_map] at hmem
    obtain ⟨c, _, hceq⟩ := hmem
    rw [← hceq]
    simp only
    exact hroot
  · intro n' hn' hnc
    unfold Deletion.deleteNodeOnly at hn'
    rw [hfind] at hn'
    simp only at hn'
    rw [List.mem_map] at hn'
    obtain ⟨n, hnf, hgn⟩ := hn'
    have hnn : n ∈ nodes := List.mem_of_mem_filter hnf
    by_cases hc : (n.parentId == some nodeId) = true
    · exfalso
      apply hnc
      rw [← hgn]
      rw [if_pos hc]
      show (kidIds.contains n.id) = true
      rw [hpred n hnn]
      exact hc
    · rw [← hgn]
      rw [if_neg hc]
      exact hnn
  · intro n hn hnid hnp
    unfold Archive.archiveNodeOnly
    rw [hfind]
    simp only
    have : (fun node =>
        if node.id == nodeId then { node with isArchived := true }
        else if node.parentId == some nodeId then { node with parentId := nd.parentId }
        else node) n = n := by
      beta_reduce
      have h1 : (n.id == nodeId) = false := by rw [beq_eq_false_iff_ne]; exact hnid
      rw [h1]
      simp only [Bool.false_eq_true, if_false]
      rw [if_neg hnp]
    rw [← this]
    exact List.mem_map_of_mem _ hn

/-- The three-node example collection used by the C2 witness: root `"a"` with
children `"b"` and `"c"`. -/
def exC2 : List ChatNode :=
  [⟨"a", none, "p", "sa", "u", "r", 0, false, false⟩,
   ⟨"b", some "a", "p", "sb", "u", "r", 0, false, false⟩,
   ⟨"c", some "a", "p", "sc", "u", "r", 0, false, false⟩]

/-- Witness for C2: deleting the root `"a"` of a three-node collection with
children `"b"`, `"c"` re-parents both children to `null`, leaving two roots. -/
theorem canopy_c2_witness :
    (Deletion.deleteNodeOnly exC2 "a" none).updatedNodes.filter
        (fun n => ((exC2.filter (fun m => m.parentId == some "a")).map (·.id)).contains n.id) =
      [⟨"b", none, "p", "sb", "u", "r", 0, false, false⟩,
       ⟨"c", none, "p", "sc", "u", "r", 0, false, false⟩] :=
  (@canopy_c2 exC2 "a" none ⟨"a", none, "p", "sa", "u", "r", 0, false, false⟩
    (by decide) (by decide)).1

/-! ## Claim C3: cascade correctness of the "with children" variants -/

/-- The `has`-test of the collected deletion set, rephrased through the
descendant relation. -/
theorem contains_subtree_char (nodes : List ChatNode) (nodeId : String) (i : String) :
    ((nodeId :: findDescendantIds nodes nodeId).contains i) =
      decide (i = nodeId ∨ IsDesc nodes nodeId i) := by
  rw [Bool.eq_iff_iff]
  rw [contains_iff, List.mem_cons, decide_eq_true_eq, mem_findDescendantIds]

theorem length_filter_partition {α : Type} (p : α → Bool) (l : List α) :
    l.length = (l.filter (fun a => !(p a))).length + (l.filter p).length := by
  induction l with
  | nil => rfl
  | cons c l ih =>
    rw [List.length_cons, List.filter_cons, List.filter_cons]
    cases hc : p c
    · simp only [Bool.not_false, if_true, Bool.false_eq_true, if_false]
      rw [List.length_cons]
      omega
    · simp only [Bool.not_true, Bool.false_eq_true, if_false, if_true]
      rw [List.length_cons]
      omega

/-- C3: on a collection containing the target node, `deleteNodeWithChildren`
removes exactly the nodes of the target's subtree (the node itself plus all
its descendants through `parentId` links) and keeps every other node record
unchanged in order, so the collection shrinks by exactly the subtree's size;
`archiveNodeWithChildren` sets `isArchived = true` on exactly the subtree's
nodes and returns every other record unchanged. -/
theorem canopy_c3 {nodes : List ChatNode} {nodeId : String} {active : Option String}
    {nd : ChatNode} (hfind : nodes.find? (fun n => n.id == nodeId) = some nd) :
    ((Deletion.deleteNodeWithChildren nodes nodeId active).updatedNodes =
      nodes.filter (fun x => !(decide (x.id = nodeId ∨ IsDesc nodes nodeId x.id)))) ∧
    (nodes.length =
      (Deletion.deleteNodeWithChildren nodes nodeId active).updatedNodes.length +
        (nodes.filter (fun x => decide (x.id = nodeId ∨ IsDesc nodes nodeId x.id))).length) ∧
    ((Archive.archiveNodeWithChildren nodes nodeId active).updatedNodes =
      nodes.map (fun x =>
        if x.id = nodeId ∨ IsDesc nodes nodeId x.id then { x with isArchived := true }
        else x)) := by
  have hdel :
      (Deletion.deleteNodeWithChildren nodes nodeId active).updatedNodes =
        nodes.filter (fun x => !(decide (x.id = nodeId ∨ IsDesc nodes nodeId x.id))) := by
    unfold Deletion.deleteNodeWithChildren
    rw [hfind]
    simp only
    apply List.filter_congr
    intro n _
    rw [contains_subtree_char]
  refine ⟨hdel, ?_, ?_⟩
  · rw [hdel]
    exact length_filter_partition _ nodes
  · unfold Archive.archiveNodeWithChildren
    rw [hfind]
    simp only
    apply List.map_congr_left
    intro n _
    beta_reduce
    rw [contains_subtree_char]
    by_cases hc : (n.id = nodeId ∨ IsDesc nodes nodeId n.id)
    · rw [if_pos hc]
      have hd : decide (n.id = nodeId ∨ IsDesc nodes nodeId n.id) = true := decide_eq_true hc
      rw [hd]
      rfl
    · rw [if_neg hc]
      have hd : decide (n.id = nodeId ∨ IsDesc nodes nodeId n.id) = false :=
        decide_eq_false hc
      rw [hd]
      rfl

/-- The four-node example collection used by the C3 witness: root `"a"`, child
`"b"` with its own child `"c"`, and a second child `"d"` of the root. -/
def exC3 : List ChatNode :=
  [⟨"a", none, "p", "sa", "u", "r", 0, false, false⟩,
   ⟨"b", some "a", "p", "sb", "u", "r", 0, false, false⟩,
   ⟨"c", some "b", "p", "sc", "u", "r", 0, false, false⟩,
   ⟨"d", some "a", "p", "sd", "u", "r", 0, false, false⟩]

/-- Witness for C3: deleting `"b"` with children removes exactly `"b"` and
`"c"` (subtree size 2) from the four-node collection. -/
theorem canopy_c3_witness :
    (Deletion.deleteNodeWithChildren exC3 "b" none).updatedNodes =
      exC3.filter (fun x => !(decide (x.id = "b" ∨ IsDesc exC3 "b" x.id))) :=
  (@canopy_c3 exC3 "b" none ⟨"b", some "a", "p", "sb", "u", "r", 0, false, false⟩
    (by decide)).1

/-! ## Claim C8: unconditional unarchiving and its idempotence -/

theorem chatNode_unarchive_eq {x : ChatNode} (h : x.isArchived = false) :
    { x with isArchived := false } = x := by
  cases x
  simp only at h
  rw [h]

/-- `unarchiveNodeWithChildren` rewritten through the descendant relation. -/
theorem unarchive_char (nodes : List ChatNode) (nodeId : String) :
    Archive.unarchiveNodeWithChildren nodes nodeId =
      nodes.map (fun x =>
        if x.id = nodeId ∨ IsDesc nodes nodeId x.id then { x with isArchived := false }
        else x) := by
  unfold Archive.unarchiveNodeWithChildren
  simp only
  apply List.map_congr_left
  intro n _
  beta_reduce
  rw [contains_subtree_char]
  by_cases hc : (n.id = nodeId ∨ IsDesc nodes nodeId n.id)
  · rw [if_pos hc]
    have hd : decide (n.id = nodeId ∨ IsDesc nodes nodeId n.id) = true := decide_eq_true hc
    rw [hd]
    rfl
  · rw [if_neg hc]
    have hd : decide (n.id = nodeId ∨ IsDesc nodes nodeId n.id) = false := decide_eq_false hc
    rw [hd]
    rfl

/-- C8: `unarchiveNodeWithChildren` sets `isArchived = false` on the target
node and every one of its descendants, unconditionally, and leaves every other
record unchanged; the operation is idempotent; and when every descendant is
already non-archived, every descendant's record is returned equal to its input
value (the whole result differs from the input at most in the target's own
flag). -/
theorem canopy_c8 (nodes : List ChatNode) (nodeId : String) :
    (Archive.unarchiveNodeWithChildren nodes nodeId =
      nodes.map (fun x =>
        if x.id = nodeId ∨ IsDesc nodes nodeId x.id then { x with isArchived := false }
        else x)) ∧
    (Archive.unarchiveNodeWithChildren (Archive.unarchiveNodeWithChildren nodes nodeId) nodeId =
      Archive.unarchiveNodeWithChildren nodes nodeId) ∧
    ((∀ x ∈ nodes, IsDesc nodes nodeId x.id → x.isArchived = false) →
      Archive.unarchiveNodeWithChildren nodes nodeId =
        nodes.map (fun x => if x.id = nodeId then { x with isArchived := false } else x)) := by
  have hfields : ∀ n ∈ nodes,
      ((fun x =>
        if x.id = nodeId ∨ IsDesc nodes nodeId x.id then { x with isArchived := false }
        else x) n).id = n.id ∧
      ((fun x =>
        if x.id = nodeId ∨ IsDesc nodes nodeId x.id then { x with isArchived := false }
        else x) n).parentId = n.parentId := by
    intro n _
    beta_reduce
    by_cases hc : (n.id = nodeId ∨ IsDesc nodes nodeId n.id)
    · rw [if_pos hc]
      exact ⟨rfl, rfl⟩
    · rw [if_neg hc]
      exact ⟨rfl, rfl⟩
  have hmapped : ∀ b, IsDesc (nodes.map (fun x =>
      if x.id = nodeId ∨ IsDesc nodes nodeId x.id then { x with isArchived := false }
      else x)) nodeId b ↔ IsDesc nodes nodeId b :=
    fun b => isDesc_map_iff hfields nodeId b
  refine ⟨unarchive_char nodes nodeId, ?_, ?_⟩
  · rw [unarchive_char nodes nodeId, unarchive_char (nodes.map (fun x =>
      if x.id = nodeId ∨ IsDesc nodes nodeId x.id then { x with isArchived := false }
      else x)) nodeId]
    rw [List.map_map]
    apply List.map_congr_left
    intro n hn
    simp only [Function.comp]
    by_cases hc : (n.id = nodeId ∨ IsDesc nodes nodeId n.id)
    · rw [if_pos hc]
      have hc2 : (({ n with isArchived := false } : ChatNode).id = nodeId ∨
          IsDesc (nodes.map (fun x =>
            if x.id = nodeId ∨ IsDesc nodes nodeId x.id then { x with isArchived := false }
            else x)) nodeId ({ n with isArchived := false } : ChatNode).id) := by
        rcases hc with h1 | h2
        · exact Or.inl h1
        · exact Or.inr ((hmapped n.id).mpr h2)
      rw [if_pos hc2]
    · rw [if_neg hc]
      have hc2 : ¬ (n.id = nodeId ∨ IsDesc (nodes.map (fun x =>
          if x.id = nodeId ∨ IsDesc nodes nodeId x.id then { x with isArchived := false }
          else x)) nodeId n.id) := by
        rintro (h1 | h2)
        · exact hc (Or.inl h1)
        · exact hc (Or.inr ((hmapped n.id).mp h2))
      rw [if_neg hc2]
  · intro hall
    rw [unarchive_char nodes nodeId]
    apply List.map_congr_left
    intro n hn
    beta_reduce
    by_cases h1 : n.id = nodeId
    · rw [if_pos (Or.inl h1), if_pos h1]
    · by_cases h2 : IsDesc nodes nodeId n.id
      · rw [if_pos (Or.inr h2), if_neg h1]
        exact chatNode_unarchive_eq (hall n hn h2)
      · rw [if_neg ?_, if_neg h1]
        rintro (hx1 | hx2)
        · exact h1 hx1
        · exact h2 hx2

/-- Witness for C8 at a concrete input: unarchiving the root of a two-node
collection whose child is archived clears both flags, and doing it twice
changes nothing more. -/
theorem canopy_c8_witness :
    Archive.unarchiveNodeWithChildren
        [⟨"a", none, "p", "sa", "u", "r", 0, true, false⟩,
         ⟨"b", some "a", "p", "sb", "u", "r", 0, true, false⟩] "a" =
      ([⟨"a", none, "p", "sa", "u", "r", 0, true, false⟩,
        ⟨"b", some "a", "p", "sb", "u", "r", 0, true, false⟩] : List ChatNode).map
        (fun x =>
          if x.id = "a" ∨ IsDesc [⟨"a", none, "p", "sa", "u", "r", 0, true, false⟩,
              ⟨"b", some "a", "p", "sb", "u", "r", 0, true, false⟩] "a" x.id then
            { x with isArchived := false }
          else x) :=
  (canopy_c8 _ "a").1

/-! ## Claim C7: operations on an absent id are no-ops -/

/-- An id occurs in an array collection when it is some node's id or some
node's parent reference. -/
def occursIn (nodes : List ChatNode) (x : String) : Bool :=
  nodes.any (fun n => n.id == x || n.parentId == some x)

theorem closSet_nil (R : String → String → Bool) (univ : List String) :
    closSet R univ [] = [] := by
  apply closIter_of_stable
  rintro b _ ⟨a, ha, _⟩
  cases ha

theorem findDescendantIds_of_absent {nodes : List ChatNode} {x : String}
    (hocc : occursIn nodes x = false) : findDescendantIds nodes x = [] := by
  unfold findDescendantIds
  have hseed : (nodes.filter (fun n => n.parentId == some x)).map (·.id) = [] := by
    have : nodes.filter (fun n => n.parentId == some x) = [] := by
      apply List.filter_eq_nil_iff.mpr
      intro n hn hpar
      unfold occursIn at hocc
      rw [← Bool.not_eq_true, List.any_eq_true] at hocc
      exact hocc ⟨n, hn, by rw [Bool.or_eq_true]; exact Or.inr hpar⟩
    rw [this]
    rfl
  rw [hseed]
  exact closSet_nil _ _

theorem find?_of_absent {nodes : List ChatNode} {x : String}
    (hocc : occursIn nodes x = false) : nodes.find? (fun n => n.id == x) = none := by
  rw [List.find?_eq_none]
  intro n hn hid
  unfold occursIn at hocc
  rw [← Bool.not_eq_true, List.any_eq_true] at hocc
  exact hocc ⟨n, hn, by rw [Bool.or_eq_true]; exact Or.inl hid⟩

theorem filter_not_nil_contains (nodes : List ChatNode) :
    nodes.filter (fun n => !(([] : List String).contains n.id)) = nodes := by
  induction nodes with
  | nil => rfl
  | cons c l ih =>
    rw [List.filter_cons]
    have hc : (!(([] : List String).contains c.id)) = true := rfl
    rw [hc, if_pos rfl, ih]

/-- C7: with a target id that occurs nowhere in the collection (neither as a
node id nor as any node's `parentId` — for the map store: that is not a key),
every mutation operation returns its input unchanged, including the unchanged
active node id. -/
theorem canopy_c7 {nodes : List ChatNode} {x : String} (active : Option String)
    (hocc : occursIn nodes x = false) :
    Deletion.deleteNodeOnly nodes x active = ⟨nodes, active⟩ ∧
    Deletion.deleteNodeWithChildren nodes x active = ⟨nodes, active⟩ ∧
    Deletion.deleteChildrenOnly nodes x active = ⟨nodes, active⟩ ∧
    Archive.archiveNodeOnly nodes x active = ⟨nodes, active⟩ ∧
    Archive.archiveNodeWithChildren nodes x active = ⟨nodes, active⟩ ∧
    Archive.archiveChildrenOnly nodes x active = ⟨nodes, active⟩ ∧
    Archive.unarchiveNodeWithChildren nodes x = nodes ∧
    (∀ (m : NodeMap) (message : Message), mapHas m x = false →
      Store.setAssistantMessage m x message = m) := by
  have hfind := find?_of_absent hocc
  have hdesc := findDescendantIds_of_absent hocc
  have hid_ne : ∀ n ∈ nodes, (n.id == x) = false := by
    intro n hn
    unfold occursIn at hocc
    rw [← Bool.not_eq_true, List.any_eq_true] at hocc
    cases hc : (n.id == x)
    · rfl
    · exact absurd ⟨n, hn, by rw [Bool.or_eq_true]; exact Or.inl hc⟩ hocc
  refine ⟨?_, ?_, ?_, ?_, ?_, ?_, ?_, ?_⟩
  · unfold Deletion.deleteNodeOnly
    rw [hfind]
  · unfold Deletion.deleteNodeWithChildren
    rw [hfind]
  · unfold Deletion.deleteChildrenOnly
    rw [hdesc]
    simp only
    rw [filter_not_nil_contains]
    have h2 : (match active with
        | some a => if (([] : List String).contains a) = true then some x else active
        | none => active) = active := by
      cases active <;> rfl
    rw [h2]
  · unfold Archive.archiveNodeOnly
    rw [hfind]
  · unfold Archive.archiveNodeWithChildren
    rw [hfind]
  · unfold Archive.archiveChildrenOnly
    rw [hdesc]
    simp only
    have h1 : nodes.map (fun n => if (([] : List String).contains n.id) = true then
        { n with isArchived := true } else n) = nodes := by
      have hmid : nodes.map (fun n => if (([] : List String).contains n.id) = true then
          { n with isArchived := true } else n) = nodes.map (fun n => n) := by
        apply List.map_congr_left
        intro n _
        rfl
      rw [hmid, List.map_id']
    have h2 : (match active with
        | some a => if (([] : List String).contains a) = true then some x else active
        | none => active) = active := by
      cases active <;> rfl
    rw [h1, h2]
  · unfold Archive.unarchiveNodeWithChildren
    rw [hdesc]
    simp only
    have : nodes.map (fun n => if ([x].contains n.id) = true then
        { n with isArchived := false } else n) = nodes.map (fun n => n) := by
      apply List.map_congr_left
      intro n hn
      have : ([x].contains n.id) = false := by
        rw [← Bool.not_eq_true, contains_iff, List.mem_singleton]
        intro he
        have hne := hid_ne n hn
        rw [beq_eq_false_iff_ne] at hne
        exact hne he
      rw [this]
      simp only [Bool.false_eq_true, if_false]
    rw [this, List.map_id']
  · intro m message hkey
    unfold Store.setAssistantMessage
    rw [mapGet_eq_none_iff.mpr hkey]

/-- Witness for C7: on a one-node collection, all operations targeting the
absent id `"zz"` return the input unchanged. -/
theorem canopy_c7_witness :
    Deletion.deleteNodeOnly [⟨"a", none, "p", "sa", "u", "r", 0, false, false⟩] "zz"
        (some "a") =
      ⟨[⟨"a", none, "p", "sa", "u", "r", 0, false, false⟩], some "a"⟩ :=
  (canopy_c7 (some "a") (by decide)).1

/-! ## Claim C5: `getAncestorPath` returns the exact root-to-node chain -/

theorem pstep_lift {m : NodeMap} :
    ∀ c b, Relation.TransGen (PStep m) c b → b ∈ mapKeys m →
      Relation.TransGen (StepIn (pstepB m) (mapKeys m)) c b := by
  intro c b htg
  induction htg with
  | single hstep =>
    intro hb
    obtain ⟨n, hn, hp⟩ := hstep
    refine Relation.TransGen.single ⟨?_, hb⟩
    unfold pstepB
    rw [hn]
    simp only
    rw [beq_iff_eq]
    exact hp
  | tail htg1 hstep ih =>
    rename_i d e
    intro hb
    obtain ⟨n, hn, hp⟩ := hstep
    have hdkey : d ∈ mapKeys m := by
      rw [← mapHas_iff_mem_keys, mapHas_true_iff_some]
      exact ⟨n, hn⟩
    refine (ih hdkey).tail ⟨?_, hb⟩
    unfold pstepB
    rw [hn]
    simp only
    rw [beq_iff_eq]
    exact hp

theorem transGen_pstep_mem_ancSet {m : NodeMap} {a b : String}
    (htg : Relation.TransGen (PStep m) a b) (hb : b ∈ mapKeys m) :
    b ∈ mapAncSet m a := by
  rcases (Relation.TransGen.head'_iff).mp htg with ⟨c, hstep, hrest⟩
  obtain ⟨n, hn, hp⟩ := hstep
  have hcseed : c ∈ (match mapGet m a with
      | some n => match n.parentId with
        | some p => [p]
        | none => []
      | none => ([] : List String)) := by
    rw [hn]
    simp only
    rw [hp]
    exact List.mem_singleton.mpr rfl
  unfold mapAncSet
  rcases Relation.reflTransGen_iff_eq_or_transGen.mp hrest with heq | htg'
  · exact subset_closSet _ _ _ (heq ▸ hcseed)
  · exact mem_closSet_iff.mpr (Or.inr ⟨c, hcseed, pstep_lift c b htg' hb⟩)

theorem mapParentAcyclic_no_cycle {m : NodeMap} (h : MapParentAcyclic m) :
    ∀ a, ¬ Relation.TransGen (PStep m) a a := by
  intro a htg
  have ha : a ∈ mapKeys m := by
    rcases (Relation.TransGen.head'_iff).mp htg with ⟨c, hstep, _⟩
    obtain ⟨n, hn, _⟩ := hstep
    rw [← mapHas_iff_mem_keys, mapHas_true_iff_some]
    exact ⟨n, hn⟩
  exact h a ha (transGen_pstep_mem_ancSet htg ha)

/-- Along a parent-linked chain of nodes of a collection, every later node is a
strict descendant of every earlier one. -/
theorem chain_pairwise_desc {nodes : List ChatNode} :
    ∀ cs : List ChatNode, (∀ c ∈ cs, c ∈ nodes) →
      List.Chain' (fun a b => b.parentId = some a.id) cs →
      List.Pairwise (fun a b => IsDesc nodes a.id b.id) cs := by
  intro cs
  induction cs with
  | nil =>
    intro _ _
    exact List.Pairwise.nil
  | cons c cs ih =>
    intro hmem hchain
    rw [List.chain'_cons'] at hchain
    obtain ⟨hhead, hchain'⟩ := hchain
    have hpw := ih (fun x hx => hmem x (List.mem_cons_of_mem c hx)) hchain'
    refine List.Pairwise.cons ?_ hpw
    intro b hb
    cases cs with
    | nil => cases hb
    | cons h t =>
      have hstep : IsDesc nodes c.id h.id := by
        refine Relation.TransGen.single ⟨h, hmem h (by simp), rfl, ?_⟩
        exact hhead h rfl
      rcases List.mem_cons.mp hb with hbh | hbt
      · exact hbh ▸ hstep
      · exact hstep.trans (List.rel_of_pairwise_cons hpw hbt)

theorem chain_nodup_le {nodes : List ChatNode} {cs : List ChatNode}
    (hwf : ArrayWF nodes) (hmem : ∀ c ∈ cs, c ∈ nodes)
    (hchain : List.Chain' (fun a b => b.parentId = some a.id) cs) :
    cs.Nodup ∧ cs.length ≤ nodes.length := by
  obtain ⟨_, _, hacyc⟩ := hwf
  have hpw := chain_pairwise_desc cs hmem hchain
  have hnd : cs.Nodup := by
    refine hpw.imp ?_
    intro a b hdesc hab
    rw [hab] at hdesc
    exact acyclic_all hacyc b.id hdesc
  exact ⟨hnd, (hnd.subperm hmem).length_le⟩

/-- The ancestor walk of `src/utils/treeUtils.ts` reproduces a parent-linked
chain exactly, given enough fuel. -/
theorem ancPathGo_chain {nodes : List ChatNode} (hnd : NodupIds nodes) :
    ∀ cs clast, cs.getLast? = some clast →
      List.Chain' (fun a b => b.parentId = some a.id) cs →
      (∀ c ∈ cs, c ∈ nodes) →
      (∀ c0 ∈ cs.head?, c0.parentId = none) →
      ∀ (acc : List ChatNode) (fuel : Nat), cs.length ≤ fuel →
        TreeUtils.ancPathGo nodes fuel (some clast.id) acc = cs ++ acc := by
  intro cs
  induction cs using List.reverseRecOn with
  | nil =>
    intro clast hlast
    rw [List.getLast?_eq_none_iff.mpr rfl] at hlast
    cases hlast
  | append_singleton ds c ih =>
    intro clast hlast hchain hmem hhead acc fuel hfuel
    rw [List.getLast?_concat] at hlast
    have hceq : clast = c := (Option.some.inj hlast).symm
    subst hceq
    have hclen : (ds ++ [clast]).length = ds.length + 1 := by
      rw [List.length_append, List.length_singleton]
    cases fuel with
    | zero =>
      rw [hclen] at hfuel
      omega
    | succ f =>
      have hcmem : clast ∈ nodes :=
        hmem clast (by rw [List.mem_append, List.mem_singleton]; exact Or.inr rfl)
      have hfind : nodes.find? (fun n => n.id == clast.id) = some clast :=
        find?_some_of_mem hnd hcmem
      show TreeUtils.ancPathGo nodes (f + 1) (some clast.id) acc = (ds ++ [clast]) ++ acc
      unfold TreeUtils.ancPathGo
      rw [hfind]
      simp only
      cases hds : ds with
      | nil =>
        subst hds
        have hroot : clast.parentId = none := hhead clast rfl
        rw [hroot]
        cases f with
        | zero => rfl
        | succ f2 => rfl
      | cons d0 dt =>
        subst hds
        obtain ⟨b, hb⟩ : ∃ b, (d0 :: dt).getLast? = some b := by
          cases hg : (d0 :: dt).getLast? with
          | none => exact absurd (List.getLast?_eq_none_iff.mp hg) (List.cons_ne_nil d0 dt)
          | some b => exact ⟨b, rfl⟩
        rw [List.chain'_append] at hchain
        obtain ⟨hchain_ds, _, hrel⟩ := hchain
        have hlink : clast.parentId = some b.id := hrel b hb clast rfl
        rw [hlink]
        have hih := ih b hb hchain_ds
          (fun x hx => hmem x (List.mem_append_left _ hx))
          (by
            intro c0 hc0
            have h0 : some d0 = some c0 := hc0
            have hc0d : c0 = d0 := (Option.some.inj h0).symm
            subst hc0d
            exact hhead c0 rfl)
          (clast :: acc) f (by rw [hclen] at hfuel; omega)
        rw [hih, List.append_cons]

/-- Along a parent-linked chain of map-store nodes, every later node's id
reaches every earlier node's id through iterated parent steps. -/
theorem chain_pairwise_pstep {m : NodeMap} :
    ∀ cs : List ConversationNode, (∀ c ∈ cs, mapGet m c.id = some c) →
      List.Chain' (fun a b => b.parentId = some a.id) cs →
      List.Pairwise (fun a b => Relation.TransGen (PStep m) b.id a.id) cs := by
  intro cs
  induction cs with
  | nil =>
    intro _ _
    exact List.Pairwise.nil
  | cons c cs ih =>
    intro hmem hchain
    rw [List.chain'_cons'] at hchain
    obtain ⟨hhead, hchain'⟩ := hchain
    have hpw := ih (fun x hx => hmem x (List.mem_cons_of_mem c hx)) hchain'
    refine List.Pairwise.cons ?_ hpw
    intro b hb
    cases cs with
    | nil => cases hb
    | cons h t =>
      have hstep : PStep m h.id c.id :=
        ⟨h, hmem h (List.mem_cons_of_mem c (List.mem_cons_self h t)), hhead h rfl⟩
      rcases List.mem_cons.mp hb with hbh | hbt
      · exact hbh ▸ Relation.TransGen.single hstep
      · exact (List.rel_of_pairwise_cons hpw hbt).tail hstep

/-- A parent-linked chain of map-store nodes of an acyclic map has pairwise
distinct ids, so its length is bounded by the number of stored entries. -/
theorem map_chain_len_le {m : NodeMap} {cs : List ConversationNode}
    (hacyc : MapParentAcyclic m) (hmem : ∀ c ∈ cs, mapGet m c.id = some c)
    (hchain : List.Chain' (fun a b => b.parentId = some a.id) cs) :
    cs.length ≤ m.length := by
  have hpw := chain_pairwise_pstep cs hmem hchain
  have hidnd : (cs.map (fun c => c.id)).Nodup := by
    refine hpw.map _ ?_
    intro a b htg hab
    exact mapParentAcyclic_no_cycle hacyc b.id (hab ▸ htg)
  have hsub : (cs.map (fun c => c.id)) ⊆ mapKeys m := by
    intro x hx
    obtain ⟨c, hc, hcid⟩ := List.mem_map.mp hx
    rw [← hcid, ← mapHas_iff_mem_keys, mapHas_true_iff_some]
    exact ⟨c, hmem c hc⟩
  have hle := (hidnd.subperm hsub).length_le
  rw [List.length_map] at hle
  unfold mapKeys at hle
  rw [List.length_map] at hle
  exact hle

/-- The ancestor walk of `src/src/lib/tree/traversal.ts` reproduces a
parent-linked chain exactly, given enough fuel. -/
theorem ancGo_chain {m : NodeMap} :
    ∀ cs clast, cs.getLast? = some clast →
      List.Chain' (fun a b => b.parentId = some a.id) cs →
      (∀ c ∈ cs, mapGet m c.id = some c) →
      (∀ c0 ∈ cs.head?, c0.parentId = none) →
      ∀ (acc : List ConversationNode) (fuel : Nat), cs.length ≤ fuel →
        Traversal.ancGo m fuel (some clast) acc = cs ++ acc := by
  intro cs
  induction cs using List.reverseRecOn with
  | nil =>
    intro clast hlast
    rw [List.getLast?_eq_none_iff.mpr rfl] at hlast
    cases hlast
  | append_singleton ds c ih =>
    intro clast hlast hchain hmem hhead acc fuel hfuel
    rw [List.getLast?_concat] at hlast
    have hceq : clast = c := (Option.some.inj hlast).symm
    subst hceq
    have hclen : (ds ++ [clast]).length = ds.length + 1 := by
      rw [List.length_append, List.length_singleton]
    cases fuel with
    | zero =>
      rw [hclen] at hfuel
      omega
    | succ f =>
      show Traversal.ancGo m (f + 1) (some clast) acc = (ds ++ [clast]) ++ acc
      unfold Traversal.ancGo
      cases hds : ds with
      | nil =>
        subst hds
        have hroot : clast.parentId = none := hhead clast rfl
        rw [hroot]
        cases f with
        | zero => rfl
        | succ f2 => rfl
      | cons d0 dt =>
        subst hds
        obtain ⟨b, hb⟩ : ∃ b, (d0 :: dt).getLast? = some b := by
          cases hg : (d0 :: dt).getLast? with
          | none => exact absurd (List.getLast?_eq_none_iff.mp hg) (List.cons_ne_nil d0 dt)
          | some b => exact ⟨b, rfl⟩
        rw [List.chain'_append] at hchain
        obtain ⟨hchain_ds, _, hrel⟩ := hchain
        have hlink : clast.parentId = some b.id := hrel b hb clast rfl
        rw [hlink]
        simp only
        have hbget : mapGet m b.id = some b :=
          hmem b (List.mem_append_left _ (List.mem_of_mem_getLast? hb))
        rw [hbget]
        have hih := ih b hb hchain_ds
          (fun x hx => hmem x (List.mem_append_left _ hx))
          (by
            intro c0 hc0
            have h0 : some d0 = some c0 := hc0
            have hc0d : c0 = d0 := (Option.some.inj h0).symm
            subst hc0d
            exact hhead c0 rfl)
          (clast :: acc) f (by rw [hclen] at hfuel; omega)
        rw [hih, List.append_cons]

/-- The map-store `getAncestorPath` reproduces a parent-linked root-to-node
chain exactly. -/
theorem map_getAncestorPath_chain {m : NodeMap} {d0 : ConversationNode}
    {drest : List ConversationNode} {dlast : ConversationNode}
    (hacyc : MapParentAcyclic m)
    (hlast : (d0 :: drest).getLast? = some dlast)
    (hchain : List.Chain' (fun a b => b.parentId = some a.id) (d0 :: drest))
    (hmem : ∀ c ∈ d0 :: drest, mapGet m c.id = some c)
    (hhead : d0.parentId = none) :
    Traversal.getAncestorPath m dlast.id = d0 :: drest := by
  have hlen := map_chain_len_le hacyc hmem hchain
  have hwalk := ancGo_chain (d0 :: drest) dlast hlast hchain hmem
    (by
      intro x hx
      have h0 : some d0 = some x := hx
      rw [← Option.some.inj h0]
      exact hhead)
    [] (m.length + 1) (by omega)
  have hget : mapGet m dlast.id = some dlast :=
    hmem dlast (List.mem_of_mem_getLast? hlast)
  unfold Traversal.getAncestorPath
  rw [hget, hwalk, List.append_nil]

/-- C5: in both implementations, for a node at depth `d` — witnessed by a
parent-linked chain `c0 :: rest` of length `d + 1` from a root (`parentId`
null) to the node, all links resolving inside the collection —
`getAncestorPath` returns exactly that chain: `d + 1` nodes, root first,
target last, each element the parent of the next. The array store assumes the
well-formedness of the data model; the map store assumes acyclic parent
links. -/
theorem canopy_c5 :
    (∀ (nodes : List ChatNode) (c0 : ChatNode) (rest : List ChatNode) (clast : ChatNode),
        ArrayWF nodes →
        (c0 :: rest).getLast? = some clast →
        List.Chain' (fun a b => b.parentId = some a.id) (c0 :: rest) →
        (∀ c ∈ c0 :: rest, c ∈ nodes) →
        c0.parentId = none →
        TreeUtils.getAncestorPath nodes clast.id = c0 :: rest ∧
          (TreeUtils.getAncestorPath nodes clast.id).length = rest.length + 1) ∧
    (∀ (m : NodeMap) (d0 : ConversationNode) (drest : List ConversationNode)
        (dlast : ConversationNode),
        MapParentAcyclic m →
        (d0 :: drest).getLast? = some dlast →
        List.Chain' (fun a b => b.parentId = some a.id) (d0 :: drest) →
        (∀ c ∈ d0 :: drest, mapGet m c.id = some c) →
        d0.parentId = none →
        Traversal.getAncestorPath m dlast.id = d0 :: drest ∧
          (Traversal.getAncestorPath m dlast.id).length = drest.length + 1) := by
  constructor
  · intro nodes c0 rest clast hwf hlast hchain hmem hhead
    have hnd : NodupIds nodes := hwf.1
    have hlen := (chain_nodup_le hwf hmem hchain).2
    have hwalk := ancPathGo_chain hnd (c0 :: rest) clast hlast hchain hmem
      (by
        intro x hx
        have h0 : some c0 = some x := hx
        rw [← Option.some.inj h0]
        exact hhead)
      [] (nodes.length + 1) (by omega)
    have h1 : TreeUtils.getAncestorPath nodes clast.id = c0 :: rest := by
      unfold TreeUtils.getAncestorPath
      rw [hwalk, List.append_nil]
    exact ⟨h1, by rw [h1]; rfl⟩
  · intro m d0 drest dlast hacyc hlast hchain hmem hhead
    have h1 := map_getAncestorPath_chain hacyc hlast hchain hmem hhead
    exact ⟨h1, by rw [h1]; rfl⟩

/-- Witness for C5: in a two-node array collection (root `"r"`, child `"k"`),
the ancestor path of `"k"` is exactly the chain root-then-child. -/
theorem canopy_c5_witness :
    TreeUtils.getAncestorPath
        [⟨"r", none, "p", "s", "u", "a", 0, false, false⟩,
         ⟨"k", some "r", "p", "s", "u", "a", 1, false, false⟩] "k" =
      [⟨"r", none, "p", "s", "u", "a", 0, false, false⟩,
       ⟨"k", some "r", "p", "s", "u", "a", 1, false, false⟩] :=
  (canopy_c5.1
    [⟨"r", none, "p", "s", "u", "a", 0, false, false⟩,
     ⟨"k", some "r", "p", "s", "u", "a", 1, false, false⟩]
    ⟨"r", none, "p", "s", "u", "a", 0, false, false⟩
    [⟨"k", some "r", "p", "s", "u", "a", 1, false, false⟩]
    ⟨"k", some "r", "p", "s", "u", "a", 1, false, false⟩
    (by decide) (by decide) (List.chain'_pair.mpr rfl) (by decide) rfl).1

/-! ## Claim C6: `buildContext` assembles system + ancestor-path messages -/

/-- C6, counterexample to the claim as stated: the project defines a system
prompt (`some " "`, not `none`), the target node `"a"` is present, yet the
context built for it contains no system-role message at all: the JavaScript
guard `systemPrompt && systemPrompt.trim()` drops any prompt that is blank
after trimming. -/
theorem canopy_c6_counterexample :
    (some " " : Option String) ≠ none ∧
      (Context.buildContext
          [("a", ⟨"a", "p", ⟨Role.user, "hi", 0⟩, some ⟨Role.assistant, "yo", 1⟩,
            none, [], "s", false, false, 0⟩)]
          "a" (some " ")).countP (fun msg => msg.role == CRole.system) = 0 := by
  decide

/-- C6 (amended): whenever the project defines a system prompt that is
nonempty and nonblank after trimming, `buildContext` on a node reached by a
parent-linked chain from a root returns exactly one system message carrying
the prompt, first, followed by, for each chain node in root-to-target order,
its user message and then its assistant message if present (a node without an
assistant message contributes only its user turn). -/
theorem canopy_c6 :
    ∀ (m : NodeMap) (d0 : ConversationNode) (drest : List ConversationNode)
      (dlast : ConversationNode) (sp : String),
      MapParentAcyclic m →
      (d0 :: drest).getLast? = some dlast →
      List.Chain' (fun a b => b.parentId = some a.id) (d0 :: drest) →
      (∀ c ∈ d0 :: drest, mapGet m c.id = some c) →
      d0.parentId = none →
      sp ≠ "" → Context.jsTrim sp ≠ "" →
      Context.buildContext m dlast.id (some sp) =
        ⟨CRole.system, sp⟩ ::
          ((d0 :: drest).map (fun node =>
            (⟨CRole.user, node.userMessage.content⟩ : ContextMessage) ::
              (match node.assistantMessage with
               | some am => [(⟨CRole.model, am.content⟩ : ContextMessage)]
               | none => []))).flatten := by
  intro m d0 drest dlast sp hacyc hlast hchain hmem hhead hs1 hs2
  have hpath := map_getAncestorPath_chain hacyc hlast hchain hmem hhead
  have hget : mapGet m dlast.id = some dlast :=
    hmem dlast (List.mem_of_mem_getLast? hlast)
  have hany : (d0 :: drest).any (fun n => n.id == dlast.id) = true :=
    List.any_eq_true.mpr
      ⟨dlast, List.mem_of_mem_getLast? hlast, by rw [beq_iff_eq]⟩
  unfold Context.buildContext
  simp only
  rw [hpath, hget]
  simp only
  rw [if_pos ⟨hs1, hs2⟩, if_pos hany]
  rfl

/-- Witness for C6 (amended): a one-node map with system prompt `"x"` yields
the system message, the user turn, then the model turn. -/
theorem canopy_c6_witness :
    Context.buildContext
        [("a", ⟨"a", "p", ⟨Role.user, "hi", 0⟩, some ⟨Role.assistant, "yo", 1⟩,
          none, [], "s", false, false, 0⟩)]
        "a" (some "x") =
      [⟨CRole.system, "x"⟩, ⟨CRole.user, "hi"⟩, ⟨CRole.model, "yo"⟩] :=
  canopy_c6
    [("a", ⟨"a", "p", ⟨Role.user, "hi", 0⟩, some ⟨Role.assistant, "yo", 1⟩,
      none, [], "s", false, false, 0⟩)]
    ⟨"a", "p", ⟨Role.user, "hi", 0⟩, some ⟨Role.assistant, "yo", 1⟩,
      none, [], "s", false, false, 0⟩
    []
    ⟨"a", "p", ⟨Role.user, "hi", 0⟩, some ⟨Role.assistant, "yo", 1⟩,
      none, [], "s", false, false, 0⟩
    "x" (by decide) rfl (List.chain'_singleton _) (by decide) rfl
    (by decide) (by decide)

/-! ## Claim C9: multiple filtered roots and the virtual root -/

/-- The `data` field of a built hierarchy node is the source node, for any
fuel. -/
theorem buildHNode_data (pN : List ChatNode) (F : Nat) (r : ChatNode) :
    (TreeUtils.buildHNode pN F r).data = r := by
  cases F with
  | zero => rfl
  | succ f => rfl

theorem map_data_buildHNode (pN : List ChatNode) (F : Nat) :
    ∀ L : List ChatNode,
      (L.map (fun r => TreeUtils.buildHNode pN F r)).map (fun c => c.data) = L := by
  intro L
  induction L with
  | nil => rfl
  | cons a t ih =>
    rw [List.map_cons, List.map_cons, buildHNode_data, ih]

/-- C9, counterexample to the claim as stated: on a collection whose filtering
yields two root-level nodes, the virtual root `"__virtual_root__"` IS part of
the rendered output — `GraphView` binds a rendered, clickable group to every
element of `tree.descendants()` and never discards the virtual root. -/
theorem canopy_c9_counterexample :
    (([⟨"r1", none, "p", "s1", "u", "a", 0, false, false⟩,
       ⟨"r2", none, "p", "s2", "u", "a", 1, false, false⟩] :
        List ChatNode).filter
          (fun n => n.projectId == "p" && (false || !n.isArchived))).countP
        (fun n => n.parentId == none) = 2 ∧
      "__virtual_root__" ∈ renderedNodeIds
        (TreeUtils.buildHierarchy
          [⟨"r1", none, "p", "s1", "u", "a", 0, false, false⟩,
           ⟨"r2", none, "p", "s2", "u", "a", 1, false, false⟩] "p" false) := by
  decide

/-- C9 (amended): whenever visibility filtering yields more than one
root-level node, `buildHierarchy` synthesizes a single virtual root
`"__virtual_root__"` whose children are exactly the real roots in order, and
that virtual root appears in (is not discarded from) the rendered output. -/
theorem canopy_c9 :
    ∀ (allNodes : List ChatNode) (projectId : String) (showArchived : Bool),
      1 < ((allNodes.filter
            (fun n => n.projectId == projectId && (showArchived || !n.isArchived))).filter
          (fun n => n.parentId == none)).length →
      ∃ t, TreeUtils.buildHierarchy allNodes projectId showArchived = some t ∧
        t.id = "__virtual_root__" ∧
        t.name = "Conversions" ∧
        t.children.map (fun c => c.data) =
          (allNodes.filter
            (fun n => n.projectId == projectId && (showArchived || !n.isArchived))).filter
            (fun n => n.parentId == none) ∧
        "__virtual_root__" ∈ renderedNodeIds (some t) := by
  intro allNodes projectId showArchived hlen
  cases hrN : (allNodes.filter
        (fun n => n.projectId == projectId && (showArchived || !n.isArchived))).filter
      (fun n => n.parentId == none) with
  | nil =>
    rw [hrN] at hlen
    simp at hlen
  | cons r1 rest =>
    cases rest with
    | nil =>
      rw [hrN] at hlen
      simp at hlen
    | cons r2 rs =>
      refine ⟨⟨"__virtual_root__", "Conversions",
          (r1 :: r2 :: rs).map
            (fun r => TreeUtils.buildHNode
              (allNodes.filter
                (fun n => n.projectId == projectId && (showArchived || !n.isArchived)))
              ((allNodes.filter
                (fun n => n.projectId == projectId && (showArchived || !n.isArchived))).length + 1)
              r),
          TreeUtils.virtualRootData projectId⟩, ?_, rfl, rfl, ?_, ?_⟩
      · unfold TreeUtils.buildHierarchy
        simp only
        rw [hrN]
      · show ((r1 :: r2 :: rs).map
            (fun r => TreeUtils.buildHNode _ _ r)).map (fun c => c.data) = _
        rw [map_data_buildHNode]
      · exact List.mem_cons_self _ _

/-- Witness for C9: the two-root collection of the counterexample, where the
synthesized virtual root carries both roots as children. -/
theorem canopy_c9_witness :
    ∃ t, TreeUtils.buildHierarchy
          [⟨"r1", none, "p", "s1", "u", "a", 0, false, false⟩,
           ⟨"r2", none, "p", "s2", "u", "a", 1, false, false⟩] "p" true = some t ∧
        t.id = "__virtual_root__" ∧
        t.name = "Conversions" ∧
        t.children.map (fun c => c.data) =
          (([⟨"r1", none, "p", "s1", "u", "a", 0, false, false⟩,
             ⟨"r2", none, "p", "s2", "u", "a", 1, false, false⟩] :
              List ChatNode).filter
            (fun n => n.projectId == "p" && (true || !n.isArchived))).filter
            (fun n => n.parentId == none) ∧
        "__virtual_root__" ∈ renderedNodeIds (some t) :=
  canopy_c9
    [⟨"r1", none, "p", "s1", "u", "a", 0, false, false⟩,
     ⟨"r2", none, "p", "s2", "u", "a", 1, false, false⟩] "p" true (by decide)

/-! ## Claim C10: archived subtrees are pruned from the layout -/

/-- One non-archived parent step: the node at `c` and its parent at `p` both
exist and are both non-archived. -/
def AStep (m : NodeMap) (c p : String) : Prop :=
  ∃ nc np, mapGet m c = some nc ∧ nc.isArchived = false ∧
    nc.parentId = some p ∧ mapGet m p = some np ∧ np.isArchived = false

theorem mem_ltreeIdsList {a : String} :
    ∀ ts : List LTree, a ∈ ltreeIdsList ts ↔ ∃ t ∈ ts, a ∈ ltreeIds t := by
  intro ts
  induction ts with
  | nil =>
    unfold ltreeIdsList
    simp
  | cons t ts ih =>
    unfold ltreeIdsList
    rw [List.mem_append, ih]
    simp

/-- A successfully built layout subtree has a non-archived source node and is
rooted at its id. -/
theorem buildLayoutState_root {m : NodeMap} {fuel : Nat} {cn : ConversationNode}
    {t : LTree} (h : Layout.buildLayoutState m false fuel cn = some t) :
    cn.isArchived = false ∧ t.rootId = cn.id := by
  cases fuel with
  | zero => cases h
  | succ f =>
    unfold Layout.buildLayoutState at h
    cases harch : cn.isArchived with
    | true =>
      rw [harch] at h
      cases h
    | false =>
      rw [harch] at h
      refine ⟨rfl, ?_⟩
      have ht := Option.some.inj h
      rw [← ht]
      rfl

/-- Every id in a built layout subtree names an existing non-archived node and
is linked to the subtree's root by non-archived parent steps. -/
theorem buildLayoutState_mem {m : NodeMap} (hcons : MapConsistent m)
    (hidm : MapIdMatch m) :
    ∀ (fuel : Nat) (node : ConversationNode) (t : LTree),
      mapGet m node.id = some node →
      Layout.buildLayoutState m false fuel node = some t →
      ∀ a ∈ ltreeIds t,
        Relation.ReflTransGen (AStep m) a node.id ∧
          ∃ n, mapGet m a = some n ∧ n.isArchived = false := by
  intro fuel
  induction fuel with
  | zero =>
    intro node t _ h
    cases h
  | succ f ih =>
    intro node t hget h a ha
    unfold Layout.buildLayoutState at h
    cases harch : node.isArchived with
    | true =>
      rw [harch] at h
      cases h
    | false =>
      rw [harch] at h
      have ht := Option.some.inj h
      rw [← ht] at ha
      unfold ltreeIds at ha
      rcases List.mem_cons.mp ha with hxa | hrest
      · subst hxa
        exact ⟨Relation.ReflTransGen.refl, node, hget, harch⟩
      · rcases (mem_ltreeIdsList _).mp hrest with ⟨t2, ht2, hat2⟩
        have hkids : t2 ∈ node.childIds.filterMap (fun childId =>
            (mapGet m childId).bind
              (fun childNode => Layout.buildLayoutState m false f childNode)) := by
          cases hcol : node.isCollapsed with
          | true =>
            rw [hcol] at ht2
            simp at ht2
          | false =>
            rw [hcol] at ht2
            exact ht2
        rcases List.mem_filterMap.mp hkids with ⟨cid, hcid, hbind⟩
        rcases Option.bind_eq_some.mp hbind with ⟨cn, hgetc, hbuild⟩
        have hcnid : cn.id = cid := hidm (cid, cn) (mapGet_eq_some_mem hgetc)
        have hgetc2 : mapGet m cn.id = some cn := by rw [hcnid]; exact hgetc
        have hrec := ih cn t2 hgetc2 hbuild a hat2
        refine ⟨hrec.1.tail ?_, hrec.2⟩
        obtain ⟨hcnarch, _⟩ := buildLayoutState_root hbuild
        obtain ⟨cn2, hcn2, hcn2p⟩ :=
          ((hcons (node.id, node) (mapGet_eq_some_mem hget)).1 cid hcid)
        have hcn2eq : cn2 = cn := by
          rw [hgetc] at hcn2
          exact (Option.some.inj hcn2).symm
        have hcnp : cn.parentId = some node.id := by
          rw [hcn2eq] at hcn2p
          exact hcn2p
        exact ⟨cn, node, hgetc2, hcnarch, hcnp, hget, harch⟩

/-- Everything the parent chain of a non-archived-linked node passes through
on its way to the chain's endpoint is non-archived. -/
theorem astep_chain_protects {m : NodeMap} (hacyc : MapParentAcyclic m)
    (rid : String) :
    ∀ a, Relation.ReflTransGen (AStep m) a rid →
      ∀ x, Relation.TransGen (PStep m) a x →
        Relation.ReflTransGen (PStep m) x rid →
        ∃ nx, mapGet m x = some nx ∧ nx.isArchived = false := by
  intro a hchain
  induction hchain using Relation.ReflTransGen.head_induction_on with
  | refl =>
    intro x htg hback
    exact absurd (Relation.TransGen.trans_left htg hback)
      (mapParentAcyclic_no_cycle hacyc rid)
  | head hstep hrest ih =>
    rename_i a c
    intro x htg hback
    obtain ⟨nc, np, hgetc, hncarch, hpar, hgetp, hnparch⟩ := hstep
    rcases (Relation.TransGen.head'_iff).mp htg with ⟨d, hfirst, hrest2⟩
    have hd : d = c := by
      obtain ⟨n1, hget1, hp1⟩ := hfirst
      rw [hgetc] at hget1
      have hn1 : nc = n1 := Option.some.inj hget1
      rw [← hn1] at hp1
      rw [hpar] at hp1
      exact (Option.some.inj hp1).symm
    subst hd
    rcases Relation.reflTransGen_iff_eq_or_transGen.mp hrest2 with heq | htg2
    · subst heq
      exact ⟨np, hgetp, hnparch⟩
    · exact ih x htg2 hback

/-- C10, counterexample to the claim as stated: over an arbitrary
(inconsistent) node map the claim fails. The root `"r"` lists `"b"` among its
`childIds` although `"b"`'s `parentId` is the archived node `"x"` (itself a
child of `"r"`), so the layout reaches `"b"` through `childIds` even though
`"b"`'s ancestor chain from the root passes through the archived `"x"`. -/
theorem canopy_c10_counterexample :
    "b" ∈ Layout.layoutIds
        [("r", ⟨"r", "p", ⟨Role.user, "u", 0⟩, none, none, ["b"], "s", false, false, 0⟩),
         ("x", ⟨"x", "p", ⟨Role.user, "u", 0⟩, none, some "r", ["b"], "s", true, false, 0⟩),
         ("b", ⟨"b", "p", ⟨Role.user, "u", 0⟩, none, some "x", [], "s", false, false, 0⟩)]
        (some "r") false ∧
      PStep
        [("r", ⟨"r", "p", ⟨Role.user, "u", 0⟩, none, none, ["b"], "s", false, false, 0⟩),
         ("x", ⟨"x", "p", ⟨Role.user, "u", 0⟩, none, some "r", ["b"], "s", true, false, 0⟩),
         ("b", ⟨"b", "p", ⟨Role.user, "u", 0⟩, none, some "x", [], "s", false, false, 0⟩)]
        "b" "x" ∧
      PStep
        [("r", ⟨"r", "p", ⟨Role.user, "u", 0⟩, none, none, ["b"], "s", false, false, 0⟩),
         ("x", ⟨"x", "p", ⟨Role.user, "u", 0⟩, none, some "r", ["b"], "s", true, false, 0⟩),
         ("b", ⟨"b", "p", ⟨Role.user, "u", 0⟩, none, some "x", [], "s", false, false, 0⟩)]
        "x" "r" ∧
      (∃ n, mapGet
          [("r", ⟨"r", "p", ⟨Role.user, "u", 0⟩, none, none, ["b"], "s", false, false, 0⟩),
           ("x", ⟨"x", "p", ⟨Role.user, "u", 0⟩, none, some "r", ["b"], "s", true, false, 0⟩),
           ("b", ⟨"b", "p", ⟨Role.user, "u", 0⟩, none, some "x", [], "s", false, false, 0⟩)]
          "x" = some n ∧ n.isArchived = true) :=
  ⟨by decide,
   ⟨⟨"b", "p", ⟨Role.user, "u", 0⟩, none, some "x", [], "s", false, false, 0⟩, rfl, rfl⟩,
   ⟨⟨"x", "p", ⟨Role.user, "u", 0⟩, none, some "r", ["b"], "s", true, false, 0⟩, rfl, rfl⟩,
   ⟨⟨"x", "p", ⟨Role.user, "u", 0⟩, none, some "r", ["b"], "s", true, false, 0⟩, rfl, rfl⟩⟩

/-- C10 (amended): for every node map whose `childIds` are consistent with the
parent links, whose stored nodes carry their keys as ids, and whose parent
links are acyclic, with `showArchived = false` every id in the returned layout
names an existing non-archived node, and every node on its ancestor chain
below the root (every `x` strictly above `a` whose own chain continues to the
root) is non-archived — archived nodes prune their entire subtrees. -/
theorem canopy_c10 :
    ∀ (m : NodeMap) (rid : String),
      MapConsistent m → MapIdMatch m → MapParentAcyclic m →
      ∀ a ∈ Layout.layoutIds m (some rid) false,
        (∃ n, mapGet m a = some n ∧ n.isArchived = false) ∧
          ∀ x, Relation.TransGen (PStep m) a x →
            Relation.ReflTransGen (PStep m) x rid →
            ∃ nx, mapGet m x = some nx ∧ nx.isArchived = false := by
  intro m rid hcons hidm hacyc a ha
  unfold Layout.layoutIds at ha
  simp only at ha
  cases hget : mapGet m rid with
  | none =>
    rw [hget] at ha
    cases ha
  | some root =>
    rw [hget] at ha
    simp only at ha
    cases hbls : Layout.buildLayoutState m false (m.length + 1) root with
    | none =>
      rw [hbls] at ha
      cases ha
    | some t =>
      rw [hbls] at ha
      have hrootid : root.id = rid := hidm (rid, root) (mapGet_eq_some_mem hget)
      have hgetr : mapGet m root.id = some root := by rw [hrootid]; exact hget
      have hmem := buildLayoutState_mem hcons hidm (m.length + 1) root t hgetr hbls a ha
      refine ⟨hmem.2, ?_⟩
      intro x htg hback
      refine astep_chain_protects hacyc rid a ?_ x htg hback
      rw [← hrootid]
      exact hmem.1

/-- Witness for C10: in a consistent two-node map with an archived child, the
layout contains only the root, and the root trivially satisfies both
conclusions. -/
theorem canopy_c10_witness :
    (∃ n, mapGet
        [("r", ⟨"r", "p", ⟨Role.user, "u", 0⟩, none, none, ["k"], "s", false, false, 0⟩),
         ("k", ⟨"k", "p", ⟨Role.user, "u", 0⟩, none, some "r", [], "s", true, false, 0⟩)]
        "r" = some n ∧ n.isArchived = false) ∧
      ∀ x, Relation.TransGen (PStep
          [("r", ⟨"r", "p", ⟨Role.user, "u", 0⟩, none, none, ["k"], "s", false, false, 0⟩),
           ("k", ⟨"k", "p", ⟨Role.user, "u", 0⟩, none, some "r", [], "s", true, false, 0⟩)])
          "r" x →
        Relation.ReflTransGen (PStep
          [("r", ⟨"r", "p", ⟨Role.user, "u", 0⟩, none, none, ["k"], "s", false, false, 0⟩),
           ("k", ⟨"k", "p", ⟨Role.user, "u", 0⟩, none, some "r", [], "s", true, false, 0⟩)])
          x "r" →
        ∃ nx, mapGet
            [("r", ⟨"r", "p", ⟨Role.user, "u", 0⟩, none, none, ["k"], "s", false, false, 0⟩),
             ("k", ⟨"k", "p", ⟨Role.user, "u", 0⟩, none, some "r", [], "s", true, false, 0⟩)]
            x = some nx ∧ nx.isArchived = false :=
  canopy_c10
    [("r", ⟨"r", "p", ⟨Role.user, "u", 0⟩, none, none, ["k"], "s", false, false, 0⟩),
     ("k", ⟨"k", "p", ⟨Role.user, "u", 0⟩, none, some "r", [], "s", true, false, 0⟩)]
    "r"
    (by decide) (by decide) (by decide)
    "r" (by decide)

end Canopy
